import Mathlib

/-!
# Almanac range maps (2023 day 05)

A shallow embedding of `2023/day05/part2/main.go` and of the part 1 package
(`2023/day05/part1/main_test.go`).  Go's `int` is the 64 bit signed integer:
values are modelled in `Int`, and every `+` and `-` of the source whose result
may leave the 64 bit range is followed by `wrap64`.
-/

namespace Day05

/-- Two's complement wrap-around of a mathematical integer into the range of
Go's `int` (64 bit). -/
def wrap64 (x : Int) : Int :=
  (x + 9223372036854775808) % 18446744073709551616 - 9223372036854775808

/-- The values a Go `int` can hold. -/
def isInt64 (x : Int) : Prop :=
  -9223372036854775808 ≤ x ∧ x < 9223372036854775808

instance (x : Int) : Decidable (isInt64 x) := by
  unfold isInt64; infer_instance

/-- Source `type Entry struct { Destination, Source, SourceRange int }`
(identical in both packages). -/
structure Entry where
  Destination : Int
  Source : Int
  SourceRange : Int
deriving DecidableEq, Repr

/-- Source `type AlmanacMap struct { Input, Output string; Entries []Entry }`
(identical in both packages). -/
structure AlmanacMap where
  Input : String
  Output : String
  Entries : List Entry
deriving DecidableEq, Repr

/-- The guard of the loop body of `AlmanacMap.Lookup`:
`seed >= e.Source && seed < e.Source+e.SourceRange`, the sum taken in `int`. -/
def Entry.covers (e : Entry) (seed : Int) : Prop :=
  seed ≥ e.Source ∧ seed < wrap64 (e.Source + e.SourceRange)

instance (e : Entry) (seed : Int) : Decidable (e.covers seed) := by
  unfold Entry.covers; infer_instance

/-- The value returned from inside the loop of `AlmanacMap.Lookup`:
`seed - e.Source + e.Destination`, both operations taken in `int`. -/
def Entry.translate (e : Entry) (seed : Int) : Int :=
  wrap64 (wrap64 (seed - e.Source) + e.Destination)

/-- The `for _, e := range a.Entries` loop of `AlmanacMap.Lookup`, on the
entries that remain to be visited. -/
def AlmanacMap.lookupLoop : List Entry → Int → Int
  | [], seed => seed
  | e :: es, seed =>
    if e.covers seed then e.translate seed else AlmanacMap.lookupLoop es seed

/-- Source `func (a AlmanacMap) Lookup(seed int) int` (identical in both
packages). -/
def AlmanacMap.Lookup (a : AlmanacMap) (seed : Int) : Int :=
  AlmanacMap.lookupLoop a.Entries seed

/-- The mathematical half-open interval `[Source, Source + SourceRange)` of an
entry, with the sum taken in the integers. -/
def Entry.interval (e : Entry) (v : Int) : Prop :=
  e.Source ≤ v ∧ v < e.Source + e.SourceRange

instance (e : Entry) (v : Int) : Decidable (e.interval v) := by
  unfold Entry.interval; infer_instance

/-- Two entries whose mathematical source intervals share no value. -/
def Entry.disjoint (e₁ e₂ : Entry) : Prop :=
  ∀ v : Int, ¬ (e₁.interval v ∧ e₂.interval v)

/-- The update statement shared by every minimum loop of the source but one:
`if lowest < 0 || x < lowest { lowest = x }` (part 2 lines 57, 108 and 141,
part 1 line 31).  The result is the new value of `lowest`. -/
def keepLowest (lowest x : Int) : Int :=
  if lowest < 0 ∨ x < lowest then x else lowest

/-- An `io.Writer` sink, observed through the strings written to it so far.
Write errors are not modelled: the source discards what `fmt.Fprintf`
returns. -/
structure Writer where
  written : List String
deriving DecidableEq, Repr

/-- One `fmt.Fprintf`/`fmt.Fprintln` call on a sink, with the text already
formatted. -/
def Writer.Fprint (w : Writer) (text : String) : Writer :=
  ⟨w.written ++ [text]⟩

/-- The `for _, m := range a.Maps` loop of `Almanac.Lookup` (the same text in
both packages): the running `location` and the sink are threaded through the
maps that remain. -/
def lookupMaps : List AlmanacMap → Int → Writer → Int × Writer
  | [], location, log => (location, log)
  | m :: ms, location, log =>
    let location := m.Lookup location
    lookupMaps ms location (log.Fprint (" " ++ m.Output ++ ": " ++ toString location))

namespace Part2

/-- Source `type SeedRange struct { Start, Range int }`. -/
structure SeedRange where
  Start : Int
  Range : Int
deriving DecidableEq, Repr

/-- Source `func (r SeedRange) End() int`: `r.Start + r.Range` in `int`. -/
def SeedRange.End (r : SeedRange) : Int :=
  wrap64 (r.Start + r.Range)

/-- Source `type Almanac struct { SeedRanges []SeedRange; Maps []AlmanacMap;
Log io.Writer }` of part 2. -/
structure Almanac where
  SeedRanges : List SeedRange
  Maps : List AlmanacMap
  Log : Writer
deriving DecidableEq, Repr

/-- Source `func (a Almanac) Lookup(seed int) (location int)` of part 2.  The
second component is the sink `a.Log` after the call. -/
def Almanac.Lookup (a : Almanac) (seed : Int) : Int × Writer :=
  let log := a.Log.Fprint ("seed: " ++ toString seed)
  let (location, log) := lookupMaps a.Maps seed log
  (location, log.Fprint "\n")

/-- The `for seed := start; seed < end; seed++` loop of
`LowestLocationByRange`, from the current `seed` and `lowest`.  Inside the
body `seed < end`, so `seed++` cannot leave the 64 bit range. -/
def Almanac.lowestLoop (a : Almanac) (end_ : Int) (seed lowest : Int) : Int :=
  if seed < end_ then
    let location := (a.Lookup seed).1
    Almanac.lowestLoop a end_ (seed + 1) (keepLowest lowest location)
  else lowest
termination_by (end_ - seed).toNat
decreasing_by omega

/-- Source `func (a Almanac) LowestLocationByRange(start int, end int) int`. -/
def Almanac.LowestLocationByRange (a : Almanac) (start end_ : Int) : Int :=
  a.lowestLoop end_ start (-1)

/-- Source `func (a Almanac) LowestLocationBySeedRangeIdx(idx int) int`;
`none` is the panic of `a.SeedRanges[idx]` on an index out of range. -/
def Almanac.LowestLocationBySeedRangeIdx (a : Almanac) (idx : Nat) : Option Int :=
  match a.SeedRanges[idx]? with
  | none => none
  | some r => some (a.LowestLocationByRange r.Start r.End)

/-- The `for idx, r := range a.SeedRanges` loop of the sequential
`LowestLocation` of part 2, on the ranges that remain.  The update is the
source's `if lowest < 0 || lowestInRange < lowestInRange`.  `none` is a panic:
the index out of range, or the integer division by zero of
`elapsed/time.Duration(r.Range)` in the progress line. -/
def Almanac.lowestLocationLoop (a : Almanac) : Nat → List SeedRange → Int → Option Int
  | _, [], lowest => some lowest
  | idx, r :: rs, lowest =>
    match a.LowestLocationBySeedRangeIdx idx with
    | none => none
    | some lowestInRange =>
      if r.Range = 0 then none
      else
        Almanac.lowestLocationLoop a (idx + 1) rs
          (if lowest < 0 ∨ lowestInRange < lowestInRange then lowestInRange else lowest)

/-- Source `func (a Almanac) LowestLocation() int` of part 2. -/
def Almanac.LowestLocation (a : Almanac) : Option Int :=
  a.lowestLocationLoop 0 a.SeedRanges (-1)

/-- The aggregator loop of `LowestLocationThreaded` and of
`LowestLocationThreadedBatched` (lines 54-60 and 106-111): `lowest := -1`,
then one `keepLowest` per result, in the order the results arrive. -/
def aggregate (arrival : List Int) : Int :=
  arrival.foldl keepLowest (-1)

/-- What the workers of `LowestLocationThreaded` compute for the indices sent
on `inputCh`, in dispatch order. -/
def Almanac.workerResults (a : Almanac) : List Nat → Option (List Int)
  | [] => some []
  | rangeIdx :: rest =>
    match a.LowestLocationBySeedRangeIdx rangeIdx, Almanac.workerResults a rest with
    | some res, some more => some (res :: more)
    | _, _ => none

/-- The orders in which the results of the work units can reach the
aggregator: with one worker the dispatch order, with more workers some
permutation of it (every permutation is admitted here, which includes every
order the scheduler can produce). -/
def arrivalOrder (n : Int) (results arrival : List Int) : Prop :=
  arrival.Perm results ∧ (n = 1 → arrival = results)

instance (n : Int) (results arrival : List Int) : Decidable (arrivalOrder n results arrival) := by
  unfold arrivalOrder; infer_instance

/-- Source `func (a Almanac) LowestLocationThreaded(n int) int`, for the run
in which the results reach the aggregator in the order `arrival`.  `none`: no
such run, or the call does not return (with `n <= 0` and a range to send, the
send on `inputCh` blocks for ever). -/
def Almanac.LowestLocationThreaded (a : Almanac) (n : Int) (arrival : List Int) : Option Int :=
  match a.workerResults (List.range a.SeedRanges.length) with
  | none => none
  | some results =>
    if results = [] then
      if arrival = [] then some (aggregate arrival) else none
    else if n ≤ 0 then none
    else if arrivalOrder n results arrival then some (aggregate arrival)
    else none

/-- The dispatch loop `for b := r.Start; b < r.End(); b += batchSize` of
`LowestLocationThreadedBatched` for one seed range, from the current `b`;
the result lists the work units sent on `inputCh`.  `none`: more than `fuel`
evaluations of the loop condition are needed. -/
def dispatchLoop (batchSize : Int) (r : SeedRange) : Nat → Int → Option (List SeedRange)
  | 0, _ => none
  | fuel + 1, b =>
    if b < r.End then
      match dispatchLoop batchSize r fuel (wrap64 (b + batchSize)) with
      | none => none
      | some units => some ({ Start := b, Range := min batchSize r.Range } :: units)
    else some []

/-- The outer loop `for idx, r := range a.SeedRanges` of the dispatcher of
`LowestLocationThreadedBatched`: the work units of all ranges, in dispatch
order. -/
def dispatchAll (batchSize : Int) (fuel : Nat) : List SeedRange → Option (List SeedRange)
  | [] => some []
  | r :: rs =>
    match dispatchLoop batchSize r fuel r.Start, dispatchAll batchSize fuel rs with
    | some units, some more => some (units ++ more)
    | _, _ => none

/-- What a worker of `LowestLocationThreadedBatched` sends on `outputCh` for
the work unit `r`: `a.LowestLocationByRange(r.Start, r.End())`. -/
def Almanac.unitResult (a : Almanac) (r : SeedRange) : Int :=
  a.LowestLocationByRange r.Start r.End

/-- Source `func (a Almanac) LowestLocationThreadedBatched(n int, batchSize
int) int`, for the run in which the results reach the aggregator in the order
`arrival`; `fuel` bounds the iterations of each dispatch loop.  `none`: no
such run, the dispatcher needs more fuel, `wg.Add(n)` panics on a negative
`n`, or the call does not return (`n = 0` and a work unit to send). -/
def Almanac.LowestLocationThreadedBatched (a : Almanac) (n batchSize : Int) (fuel : Nat)
    (arrival : List Int) : Option Int :=
  if n < 0 then none
  else
    match dispatchAll batchSize fuel a.SeedRanges with
    | none => none
    | some units =>
      let results := units.map a.unitResult
      if results = [] then
        if arrival = [] then some (aggregate arrival) else none
      else if n = 0 then none
      else if arrivalOrder n results arrival then some (aggregate arrival)
      else none

end Part2

namespace Part1

/-- Source `type Almanac struct { Seeds []int; Maps []AlmanacMap; Log
io.Writer }` of part 1. -/
structure Almanac where
  Seeds : List Int
  Maps : List AlmanacMap
  Log : Writer
deriving DecidableEq, Repr

/-- Source `func (a Almanac) Lookup(seed int) (location int)` of part 1.  The
second component is the sink `a.Log` after the call. -/
def Almanac.Lookup (a : Almanac) (seed : Int) : Int × Writer :=
  let log := a.Log.Fprint ("seed: " ++ toString seed)
  let (location, log) := lookupMaps a.Maps seed log
  (location, log.Fprint "\n")

/-- The `for _, seed := range a.Seeds` loop of the part 1 `LowestLocation`,
on the seeds that remain. -/
def Almanac.lowestLoop (a : Almanac) : List Int → Int → Int
  | [], lowest => lowest
  | seed :: seeds, lowest =>
    let location := (a.Lookup seed).1
    Almanac.lowestLoop a seeds (keepLowest lowest location)

/-- Source `func (a Almanac) LowestLocation() int` of part 1. -/
def Almanac.LowestLocation (a : Almanac) : Int :=
  a.lowestLoop a.Seeds (-1)

end Part1

/-- An almanac with one seed range `[10, 13)` and one map that sends seed 13,
the first seed after the range, to location 0. -/
def Part2.overshootAlmanac : Part2.Almanac :=
  ⟨[⟨10, 3⟩], [⟨"seed", "soil", [⟨0, 13, 1⟩]⟩], ⟨[]⟩⟩

/-- An almanac without maps whose first seed range `[5, 6)` has a higher
minimum than its second seed range `[3, 4)`. -/
def Part2.descendingAlmanac : Part2.Almanac :=
  ⟨[⟨5, 1⟩, ⟨3, 1⟩], [], ⟨[]⟩⟩

/-- An almanac without maps with a negative seed: seed ranges `[-5, -4)` and
`[3, 4)`. -/
def Part2.negativeAlmanac : Part2.Almanac :=
  ⟨[⟨-5, 1⟩, ⟨3, 1⟩], [], ⟨[]⟩⟩

/-- The `for _, r := range a.SeedRanges` loop of `TotalSeeds`, on the ranges
that remain: `tot = tot + r.Range` in `int`. -/
def Part2.Almanac.totalLoop : List Part2.SeedRange → Int → Int
  | [], tot => tot
  | r :: rs, tot => Part2.Almanac.totalLoop rs (wrap64 (tot + r.Range))

/-- Source `func (a Almanac) TotalSeeds() (tot int)`; the named result `tot`
starts at zero. -/
def Part2.Almanac.TotalSeeds (a : Part2.Almanac) : Int :=
  Part2.Almanac.totalLoop a.SeedRanges 0

/-- The first map of the sample, `seed-to-soil`, with the entries `50 98 2`
and `52 50 48` (destination, source, length). -/
def sampleSeedToSoil : AlmanacMap :=
  ⟨"seed", "soil", [⟨50, 98, 2⟩, ⟨52, 50, 48⟩]⟩

/-- An almanac without maps and with the single seed range `[10, 11)`. -/
def Part2.singleAlmanac : Part2.Almanac :=
  ⟨[⟨10, 1⟩], [], ⟨[]⟩⟩

/-- The almanac `singleAlmanac` with the zero-length seed range `(20, 0)`
inserted after its seed range. -/
def Part2.zeroLengthAlmanac : Part2.Almanac :=
  ⟨[⟨10, 1⟩, ⟨20, 0⟩], [], ⟨[]⟩⟩

/-- Two entries whose guards, as `AlmanacMap.Lookup` evaluates them, hold for
no common value. -/
def Entry.guardDisjoint (e₁ e₂ : Entry) : Prop :=
  ∀ v : Int, ¬ (e₁.covers v ∧ e₂.covers v)

/-- The number `ceil(r.Range / batchSize)` of the batches of a seed range, for
a batch size `>= 1`; zero when `r.Range <= 0`. -/
def Part2.iterations (batchSize : Int) (r : Part2.SeedRange) : Nat :=
  ((r.Range + batchSize - 1) / batchSize).toNat

/-- The work units `SeedRange{s + k*B, min(B, L)}` for `k = 0 .. ceil(L/B)-1`
of the seed range `(s, L)` and the batch size `B`. -/
def Part2.batchUnits (batchSize : Int) (r : Part2.SeedRange) : List Part2.SeedRange :=
  (List.range (Part2.iterations batchSize r)).map
    (fun k : Nat => ⟨r.Start + (k : Int) * batchSize, min batchSize r.Range⟩)

/-- The work units `batchUnits` of all seed ranges, range after range. -/
def Part2.allUnits (batchSize : Int) : List Part2.SeedRange → List Part2.SeedRange
  | [] => []
  | r :: rs => Part2.batchUnits batchSize r ++ Part2.allUnits batchSize rs

/-- The loop variable `b` of the dispatch loop of the range `r` stays in the
64 bit range: `r.Start`, `r.Start + r.Range` and the value
`r.Start + ceil(r.Range/batchSize) * batchSize` that ends the loop are all
representable. -/
def Part2.SeedRange.fits (batchSize : Int) (r : Part2.SeedRange) : Prop :=
  isInt64 r.Start ∧ isInt64 (r.Start + r.Range) ∧
    isInt64 (r.Start + (Part2.iterations batchSize r : Int) * batchSize)

instance (batchSize : Int) (r : Part2.SeedRange) : Decidable (r.fits batchSize) := by
  unfold Part2.SeedRange.fits; infer_instance

/-- A value `x` lies in the half-open interval `[r.Start, r.Start + r.Range)`
of a seed range or work unit. -/
def Part2.SeedRange.contains (r : Part2.SeedRange) (x : Int) : Prop :=
  r.Start ≤ x ∧ x < r.Start + r.Range

/-- An almanac with the seed ranges `[10, 13)` and `[20, 21)` and one map
that sends seed 13, the first seed after the first range, to the negative
location -7. -/
def Part2.negativeOvershootAlmanac : Part2.Almanac :=
  ⟨[⟨10, 3⟩, ⟨20, 1⟩], [⟨"seed", "soil", [⟨-7, 13, 1⟩]⟩], ⟨[]⟩⟩

/-- The two seed ranges `79 14` and `55 13` of the sample with the first map
of the sample. -/
def Part2.sampleRangesAlmanac : Part2.Almanac :=
  ⟨[⟨79, 14⟩, ⟨55, 13⟩], [sampleSeedToSoil], ⟨[]⟩⟩

/-! ## Text input: the standard library functions used by `LoadAlmanac`

Go strings are modelled as lists of characters (the input is taken to be valid
UTF-8 text); the separators and affixes the source uses are ASCII. -/

/-- Go `strings.HasPrefix(s, affix)`. -/
def HasPrefix (s affix : List Char) : Bool :=
  affix.isPrefixOf s

/-- Go `strings.TrimPrefix(s, affix)`. -/
def TrimPrefix (s affix : List Char) : List Char :=
  if HasPrefix s affix then s.drop affix.length else s

/-- Go `strings.HasSuffix(s, affix)`. -/
def HasSuffix (s affix : List Char) : Bool :=
  affix.isSuffixOf s

/-- Go `strings.TrimSuffix(s, affix)`. -/
def TrimSuffix (s affix : List Char) : List Char :=
  if HasSuffix s affix then s.take (s.length - affix.length) else s

/-- Go `strings.Split(s, sep)` for a separator of one character: the pieces
of `s` between the occurrences of `sep`; one empty piece for the empty
string. -/
def Split : List Char → Char → List (List Char)
  | [], _ => [[]]
  | c :: cs, sep =>
    if c = sep then [] :: Split cs sep
    else
      match Split cs sep with
      | [] => [[c]]
      | piece :: pieces => (c :: piece) :: pieces

/-- The tokens of `bufio.ScanLines` before the carriage return is dropped:
the pieces of the input between line feeds, without a final empty piece. -/
def rawLines (input : List Char) : List (List Char) :=
  let pieces := Split input '\n'
  if pieces.getLast? = some [] then pieces.dropLast else pieces

/-- The `dropCR` of `bufio.ScanLines`: one trailing carriage return is
removed. -/
def dropCR (line : List Char) : List Char :=
  if line.getLast? = some '\r' then line.dropLast else line

/-- The lines a `bufio.Scanner` with the split function `bufio.ScanLines`
yields for an input. -/
def ScanLines (input : List Char) : List (List Char) :=
  (rawLines input).map dropCR

/-- A line that does not fit the buffer of a `bufio.Scanner` with the default
limit `bufio.MaxScanTokenSize = 64 * 1024`: its UTF-8 encoding has at least
65536 bytes.  The scanner then stops with `bufio.ErrTooLong`. -/
def lineTooLong (line : List Char) : Bool :=
  decide (65536 ≤ (line.map Char.utf8Size).sum)

/-- An ASCII decimal digit, `'0'` (code 48) to `'9'` (code 57). -/
def isDigit (c : Char) : Bool :=
  decide (48 ≤ c.toNat ∧ c.toNat ≤ 57)

/-- The value of a run of decimal digits read after the value `n`; `none` when
a character is not a digit. -/
def digitsValue : List Char → Nat → Option Nat
  | [], n => some n
  | c :: cs, n => if isDigit c then digitsValue cs (n * 10 + (c.toNat - 48)) else none

/-- Go `strconv.Atoi(s)`, which for the 64 bit `int` is
`strconv.ParseInt(s, 10, 64)`: an optional sign, then one or more decimal
digits, with a value that fits in 64 bits; `none` is the error result. -/
def Atoi (s : List Char) : Option Int :=
  match s with
  | [] => none
  | c :: cs =>
    if c = '-' then
      if cs = [] then none
      else
        match digitsValue cs 0 with
        | none => none
        | some n => if n ≤ 9223372036854775808 then some (-(n : Int)) else none
    else if c = '+' then
      if cs = [] then none
      else
        match digitsValue cs 0 with
        | none => none
        | some n => if n ≤ 9223372036854775807 then some (n : Int) else none
    else
      match digitsValue (c :: cs) 0 with
      | none => none
      | some n => if n ≤ 9223372036854775807 then some (n : Int) else none

/-- The `isSpace` of Go's package `fmt`. -/
def isSpace (c : Char) : Bool :=
  let r := c.toNat
  decide ((0x0009 ≤ r ∧ r ≤ 0x000d) ∨ r = 0x0020 ∨ r = 0x0085 ∨ r = 0x00a0 ∨ r = 0x1680 ∨
    (0x2000 ≤ r ∧ r ≤ 0x200a) ∨ r = 0x2028 ∨ r = 0x2029 ∨ r = 0x202f ∨ r = 0x205f ∨
    r = 0x3000)

/-- The verb `%d` of `fmt.Fscanf` on the rest of a line (a text without line
feed): leading space is skipped, an optional sign and a run of decimal digits
are read and converted with `strconv.ParseInt(token, 10, 64)`.  The result is
the value and the unread rest; `none` is the error result. -/
def scanInt (s : List Char) : Option (Int × List Char) :=
  let s := s.dropWhile isSpace
  match s with
  | [] => none
  | c :: cs =>
    let sign := if c = '+' ∨ c = '-' then [c] else []
    let s := if c = '+' ∨ c = '-' then cs else c :: cs
    let digits := s.takeWhile isDigit
    if digits = [] then none
    else
      match Atoi (sign ++ digits) with
      | none => none
      | some v => some (v, s.dropWhile isDigit)

/-- A space of the format of `fmt.Fscanf` on the rest of a line (a text
without line feed): it matches the end of the input, or one or more spaces of
the input. -/
def scanSpace (s : List Char) : Option (List Char) :=
  match s with
  | [] => some []
  | c :: cs => if isSpace c then some (cs.dropWhile isSpace) else none

/-- The call `fmt.Fscanf(r, "%d %d %d", &entry.Destination, &entry.Source,
&entry.SourceRange)` on a reader over one line of the scanner: the entry read,
or `none` for an error.  What follows the third number is not read. -/
def FscanfEntry (line : List Char) : Option Entry :=
  match scanInt line with
  | none => none
  | some (destination, s) =>
    match scanSpace s with
    | none => none
    | some s =>
      match scanInt s with
      | none => none
      | some (source, s) =>
        match scanSpace s with
        | none => none
        | some s =>
          match scanInt s with
          | none => none
          | some (sourceRange, _) => some ⟨destination, source, sourceRange⟩

/-- The `for i := 0; i < len(rawSeeds); i += 2` loop of the part 2
`LoadAlmanac`, on the fields that remain; `none` is a panic: an `Atoi` error,
or the index `i+1` out of range for an odd number of fields. -/
def Part2.seedLoop : List (List Char) → List Part2.SeedRange → Option (List Part2.SeedRange)
  | [], seedRanges => some seedRanges
  | [rawStart], _ =>
    match Atoi rawStart with
    | none => none
    | some _ => none
  | rawStart :: rawRange :: rest, seedRanges =>
    match Atoi rawStart with
    | none => none
    | some seedStart =>
      match Atoi rawRange with
      | none => none
      | some seedRange =>
        Part2.seedLoop rest (seedRanges ++ [{ Start := seedStart, Range := seedRange }])

mutual

/-- The outer `for scanner.Scan()` loop of the part 2 `LoadAlmanac`, on the
lines that remain; `none` is a panic. -/
def Part2.loadLoop : List (List Char) → Part2.Almanac → Option Part2.Almanac
  | [], almanac => some almanac
  | line :: rest, almanac =>
    if HasPrefix line "seeds: ".toList then
      match Part2.seedLoop (Split (TrimPrefix line "seeds: ".toList) ' ') almanac.SeedRanges with
      | none => none
      | some seedRanges => Part2.loadLoop rest { almanac with SeedRanges := seedRanges }
    else if HasSuffix line " map:".toList then
      let splitName := Split (TrimSuffix line " map:".toList) '-'
      match splitName[0]?, splitName[2]? with
      | some input, some output =>
        Part2.blockLoop rest { Input := String.mk input, Output := String.mk output, Entries := [] }
          almanac
      | _, _ => none
    else Part2.loadLoop rest almanac

/-- The inner `for scanner.Scan()` loop of the part 2 `LoadAlmanac`, which
reads the entries of the map `aMap`, on the lines that remain; after it the
map is appended and the outer loop goes on.  `none` is a panic. -/
def Part2.blockLoop : List (List Char) → AlmanacMap → Part2.Almanac → Option Part2.Almanac
  | [], aMap, almanac => some { almanac with Maps := almanac.Maps ++ [aMap] }
  | line :: rest, aMap, almanac =>
    if line.length > 0 then
      match FscanfEntry line with
      | none => none
      | some entry => Part2.blockLoop rest { aMap with Entries := aMap.Entries ++ [entry] } almanac
    else Part2.loadLoop rest { almanac with Maps := almanac.Maps ++ [aMap] }

end

/-- Source `func LoadAlmanac(input string) (almanac Almanac)` of part 2;
`none` is a panic.  `Log` is `io.Discard`, a sink to which nothing has been
written.  After the loops `scanner.Err()` is not nil exactly when a line was
too long for the scanner. -/
def Part2.LoadAlmanac (input : List Char) : Option Part2.Almanac :=
  match Part2.loadLoop (ScanLines input) { SeedRanges := [], Maps := [], Log := ⟨[]⟩ } with
  | none => none
  | some almanac => if (rawLines input).any lineTooLong then none else some almanac

/-! ## Well-formed almanac text -/

/-- A decimal numeral of the input together with an integer value. -/
structure Numeral where
  text : List Char
  value : Int
deriving DecidableEq, Repr

/-- The numeral is an integer of the input: `strconv.Atoi` reads its value
from its text. -/
def Numeral.valid (t : Numeral) : Prop :=
  Atoi t.text = some t.value

instance (t : Numeral) : Decidable t.valid := by
  unfold Numeral.valid; infer_instance

/-- A name of a map header: no `-` and no white space. -/
def isName (name : List Char) : Prop :=
  ∀ c ∈ name, c ≠ '-' ∧ isSpace c = false

instance (name : List Char) : Decidable (isName name) := by
  unfold isName; infer_instance

/-- A map block of a well-formed input: the two names of its header and the
three numerals `<dest> <source> <length>` of each of its lines. -/
structure BlockText where
  input : List Char
  output : List Char
  entries : List (Numeral × Numeral × Numeral)
deriving DecidableEq, Repr

/-- The pieces joined by one separator character between neighbours. -/
def joinWith (sep : Char) : List (List Char) → List Char
  | [] => []
  | [piece] => piece
  | piece :: next :: rest => piece ++ sep :: joinWith sep (next :: rest)

/-- The fields `a1 l1 ... ak lk` of a seeds line. -/
def seedFields : List (Numeral × Numeral) → List (List Char)
  | [] => []
  | p :: ps => p.1.text :: p.2.text :: seedFields ps

/-- The line `seeds: a1 l1 ... ak lk`, the fields separated by single
spaces. -/
def seedsLine (seeds : List (Numeral × Numeral)) : List Char :=
  "seeds: ".toList ++ joinWith ' ' (seedFields seeds)

/-- The header `<in>-to-<out> map:` of a block. -/
def headerLine (b : BlockText) : List Char :=
  b.input ++ "-to-".toList ++ b.output ++ " map:".toList

/-- The line `<dest> <source> <length>` of an entry. -/
def entryLine (e : Numeral × Numeral × Numeral) : List Char :=
  e.1.text ++ ' ' :: (e.2.1.text ++ ' ' :: e.2.2.text)

/-- The lines of the blocks, each block preceded by a blank line. -/
def blocksLines : List BlockText → List (List Char)
  | [] => []
  | b :: bs => [] :: headerLine b :: (b.entries.map entryLine ++ blocksLines bs)

/-- The lines of a well-formed input: the seeds line, then the blocks
separated by blank lines. -/
def almanacLines (seeds : List (Numeral × Numeral)) (blocks : List BlockText) :
    List (List Char) :=
  seedsLine seeds :: blocksLines blocks

/-- The text whose lines are the given ones, each ended by a line feed. -/
def unlines : List (List Char) → List Char
  | [] => []
  | line :: rest => line ++ '\n' :: unlines rest

/-- The seed ranges `(a1, l1), ..., (ak, lk)` a seeds line stands for. -/
def seedValues (seeds : List (Numeral × Numeral)) : List Part2.SeedRange :=
  seeds.map (fun p => { Start := p.1.value, Range := p.2.value })

/-- The map a block stands for. -/
def BlockText.toMap (b : BlockText) : AlmanacMap :=
  { Input := String.mk b.input, Output := String.mk b.output,
    Entries := b.entries.map
      (fun e => { Destination := e.1.value, Source := e.2.1.value, SourceRange := e.2.2.value }) }

/-- The input is well formed: at least one pair of seed numerals, every
numeral an integer that `strconv.Atoi` reads, every name without `-` and white
space, and no line too long for the scanner. -/
def wellFormed (seeds : List (Numeral × Numeral)) (blocks : List BlockText) : Prop :=
  seeds ≠ [] ∧ (∀ p ∈ seeds, p.1.valid ∧ p.2.valid) ∧
    (∀ b ∈ blocks, isName b.input ∧ isName b.output ∧
      ∀ e ∈ b.entries, e.1.valid ∧ e.2.1.valid ∧ e.2.2.valid) ∧
    (∀ line ∈ almanacLines seeds blocks, lineTooLong line = false)

/-- A well-formed input but for its size: the header of its one block has an
input name of 70000 letters, so the header line has more than 65536 bytes. -/
def longNameInput : List Char :=
  unlines (almanacLines [(⟨"79".toList, 79⟩, ⟨"14".toList, 14⟩)]
    [⟨List.replicate 70000 'a', "soil".toList, []⟩])

instance (seeds : List (Numeral × Numeral)) (blocks : List BlockText) :
    Decidable (wellFormed seeds blocks) := by
  unfold wellFormed; infer_instance

/-- The seed numerals `79 14 55 13` of the sample. -/
def sampleSeeds : List (Numeral × Numeral) :=
  [(⟨"79".toList, 79⟩, ⟨"14".toList, 14⟩), (⟨"55".toList, 55⟩, ⟨"13".toList, 13⟩)]

/-- The first two blocks of the sample, the second cut to one line. -/
def sampleBlocks : List BlockText :=
  [⟨"seed".toList, "soil".toList,
      [(⟨"50".toList, 50⟩, ⟨"98".toList, 98⟩, ⟨"2".toList, 2⟩),
        (⟨"52".toList, 52⟩, ⟨"50".toList, 50⟩, ⟨"48".toList, 48⟩)]⟩,
    ⟨"soil".toList, "fertilizer".toList,
      [(⟨"0".toList, 0⟩, ⟨"15".toList, 15⟩, ⟨"37".toList, 37⟩)]⟩]

/-- The `for _, seedStr := range strings.Split(...)` loop of the part 1
`LoadAlmanac`, on the fields that remain; `none` is the panic on an `Atoi`
error. -/
def Part1.seedLoop : List (List Char) → List Int → Option (List Int)
  | [], seeds => some seeds
  | seedStr :: rest, seeds =>
    match Atoi seedStr with
    | none => none
    | some seed => Part1.seedLoop rest (seeds ++ [seed])

mutual

/-- The outer `for scanner.Scan()` loop of the part 1 `LoadAlmanac`, on the
lines that remain; `none` is a panic. -/
def Part1.loadLoop : List (List Char) → Part1.Almanac → Option Part1.Almanac
  | [], almanac => some almanac
  | line :: rest, almanac =>
    if HasPrefix line "seeds: ".toList then
      match Part1.seedLoop (Split (TrimPrefix line "seeds: ".toList) ' ') almanac.Seeds with
      | none => none
      | some seeds => Part1.loadLoop rest { almanac with Seeds := seeds }
    else if HasSuffix line " map:".toList then
      let splitName := Split (TrimSuffix line " map:".toList) '-'
      match splitName[0]?, splitName[2]? with
      | some input, some output =>
        Part1.blockLoop rest { Input := String.mk input, Output := String.mk output, Entries := [] }
          almanac
      | _, _ => none
    else Part1.loadLoop rest almanac

/-- The inner `for scanner.Scan()` loop of the part 1 `LoadAlmanac`, which
reads the entries of the map `aMap`, on the lines that remain; after it the
map is appended and the outer loop goes on.  `none` is a panic. -/
def Part1.blockLoop : List (List Char) → AlmanacMap → Part1.Almanac → Option Part1.Almanac
  | [], aMap, almanac => some { almanac with Maps := almanac.Maps ++ [aMap] }
  | line :: rest, aMap, almanac =>
    if line.length > 0 then
      match FscanfEntry line with
      | none => none
      | some entry => Part1.blockLoop rest { aMap with Entries := aMap.Entries ++ [entry] } almanac
    else Part1.loadLoop rest { almanac with Maps := almanac.Maps ++ [aMap] }

end

/-- Source `func LoadAlmanac(input string) (almanac Almanac)` of part 1;
`none` is a panic.  `Log` is `io.Discard`, a sink to which nothing has been
written.  After the loops `scanner.Err()` is not nil exactly when a line was
too long for the scanner. -/
def Part1.LoadAlmanac (input : List Char) : Option Part1.Almanac :=
  match Part1.loadLoop (ScanLines input) { Seeds := [], Maps := [], Log := ⟨[]⟩ } with
  | none => none
  | some almanac => if (rawLines input).any lineTooLong then none else some almanac

/-! ## Arithmetic of `wrap64` -/

theorem wrap64_of_isInt64 {x : Int} (h : isInt64 x) : wrap64 x = x := by
  unfold isInt64 at h
  unfold wrap64
  omega

theorem wrap64_add_left (x y : Int) : wrap64 (wrap64 x + y) = wrap64 (x + y) := by
  unfold wrap64
  omega

theorem Entry.translate_eq (e : Entry) (v : Int) :
    e.translate v = wrap64 (v - e.Source + e.Destination) := by
  unfold Entry.translate
  exact wrap64_add_left _ _

theorem Entry.covers_iff_interval {e : Entry} (h : isInt64 (e.Source + e.SourceRange))
    (v : Int) : e.covers v ↔ e.interval v := by
  unfold Entry.covers Entry.interval
  rw [wrap64_of_isInt64 h]

/-! ## The entry scan of `AlmanacMap.Lookup` -/

theorem lookupLoop_of_not_covers (es : List Entry) (v : Int)
    (h : ∀ e ∈ es, ¬ e.covers v) : AlmanacMap.lookupLoop es v = v := by
  induction es with
  | nil => rfl
  | cons hd tl ih =>
    have hhd : ¬ hd.covers v := h hd (List.mem_cons_self hd tl)
    have htl : ∀ e ∈ tl, ¬ e.covers v := fun e he => h e (List.mem_cons_of_mem hd he)
    simp only [AlmanacMap.lookupLoop, if_neg hhd]
    exact ih htl

theorem lookupLoop_first (es : List Entry) (v : Int) :
    ∀ (i : Nat) (e : Entry), es[i]? = some e → e.covers v →
      (∀ (j : Nat) (e' : Entry), j < i → es[j]? = some e' → ¬ e'.covers v) →
      AlmanacMap.lookupLoop es v = e.translate v := by
  induction es with
  | nil => intro i e hi; simp at hi
  | cons hd tl ih =>
    intro i e hi hcov hfirst
    cases i with
    | zero =>
      simp only [List.getElem?_cons_zero, Option.some.injEq] at hi
      subst hi
      simp only [AlmanacMap.lookupLoop, if_pos hcov]
    | succ k =>
      have hhd : ¬ hd.covers v := hfirst 0 hd (Nat.succ_pos k) (by simp)
      simp only [List.getElem?_cons_succ] at hi
      simp only [AlmanacMap.lookupLoop, if_neg hhd]
      refine ih k e hi hcov ?_
      intro j e' hj hj'
      exact hfirst (j + 1) e' (Nat.succ_lt_succ hj) (by simpa using hj')

theorem lookupLoop_covered (es : List Entry)
    (hdisj : es.Pairwise Entry.disjoint)
    (hov : ∀ e ∈ es, isInt64 (e.Source + e.SourceRange))
    (e : Entry) (he : e ∈ es) (v : Int) (hv : e.interval v) :
    AlmanacMap.lookupLoop es v = e.translate v := by
  induction es with
  | nil => cases he
  | cons hd tl ih =>
    rw [List.pairwise_cons] at hdisj
    have hovtl : ∀ x ∈ tl, isInt64 (x.Source + x.SourceRange) :=
      fun x hx => hov x (List.mem_cons_of_mem hd hx)
    have hovhd := hov hd (List.mem_cons_self hd tl)
    by_cases hc : hd.covers v
    · simp only [AlmanacMap.lookupLoop, if_pos hc]
      rcases List.mem_cons.mp he with rfl | hmem
      · rfl
      · exact absurd ⟨(Entry.covers_iff_interval hovhd v).mp hc, hv⟩ (hdisj.1 e hmem v)
    · simp only [AlmanacMap.lookupLoop, if_neg hc]
      rcases List.mem_cons.mp he with rfl | hmem
      · exact absurd ((Entry.covers_iff_interval hovhd v).mpr hv) hc
      · exact ih hdisj.2 hovtl hmem

theorem lookupMaps_fst (ms : List AlmanacMap) :
    ∀ (location : Int) (log : Writer),
      (lookupMaps ms location log).1 = ms.foldl (fun loc m => m.Lookup loc) location := by
  induction ms with
  | nil => intro location log; rfl
  | cons m ms ih =>
    intro location log
    simp only [lookupMaps, List.foldl_cons]
    exact ih _ _

/-! ## Claims on `AlmanacMap.Lookup` and `Almanac.Lookup` -/

/-- C1: in a map whose entries have pairwise disjoint source intervals
`[Source, Source+SourceRange)` with `Source+SourceRange` inside the 64 bit
range, every value `v` of the interval of an entry `e` is looked up as
`v - e.Source + e.Destination`, computed in `int`; when that expression does
not overflow the result is the mathematical value. -/
theorem AlmanacMap.Lookup_covered (a : AlmanacMap)
    (hdisj : a.Entries.Pairwise Entry.disjoint)
    (hov : ∀ e ∈ a.Entries, isInt64 (e.Source + e.SourceRange))
    (e : Entry) (he : e ∈ a.Entries) (v : Int)
    (hv : e.Source ≤ v ∧ v < e.Source + e.SourceRange) :
    a.Lookup v = wrap64 (v - e.Source + e.Destination) ∧
      (isInt64 (v - e.Source + e.Destination) →
        a.Lookup v = v - e.Source + e.Destination) := by
  have h : a.Lookup v = wrap64 (v - e.Source + e.Destination) := by
    unfold AlmanacMap.Lookup
    rw [lookupLoop_covered a.Entries hdisj hov e he v hv, Entry.translate_eq]
  exact ⟨h, fun hr => by rw [h, wrap64_of_isInt64 hr]⟩

/-- Witness of C1 on the seed-to-soil map of the sample: seed 79 lies in the
interval of the entry `52 50 48`. -/
theorem AlmanacMap.Lookup_covered_witness :
    AlmanacMap.Lookup ⟨"seed", "soil", [⟨50, 98, 2⟩, ⟨52, 50, 48⟩]⟩ 79
        = wrap64 (79 - 50 + 52) ∧
      (isInt64 (79 - 50 + 52) →
        AlmanacMap.Lookup ⟨"seed", "soil", [⟨50, 98, 2⟩, ⟨52, 50, 48⟩]⟩ 79
          = 79 - 50 + 52) :=
  AlmanacMap.Lookup_covered ⟨"seed", "soil", [⟨50, 98, 2⟩, ⟨52, 50, 48⟩]⟩
    (by
      simp only [List.pairwise_cons, List.mem_singleton, forall_eq, List.not_mem_nil,
        false_implies, implies_true, List.Pairwise.nil, and_true]
      intro v hv
      simp only [Entry.interval] at hv
      omega)
    (by
      intro e he
      simp only [List.mem_cons, List.mem_singleton, List.not_mem_nil, or_false] at he
      rcases he with rfl | rfl <;> decide)
    ⟨52, 50, 48⟩ (by simp) 79 (by decide)

/-- C2: a value that no entry covers (the guard
`e.Source <= v && v < e.Source+e.SourceRange` of the scan is false for every
entry) is returned unchanged; so is every value in a map without entries, and
every value outside all mathematical intervals when no `Source+SourceRange`
overflows. -/
theorem AlmanacMap.Lookup_identity (a : AlmanacMap) (v : Int) :
    ((∀ e ∈ a.Entries, ¬ (v ≥ e.Source ∧ v < wrap64 (e.Source + e.SourceRange))) →
        a.Lookup v = v) ∧
      (a.Entries = [] → a.Lookup v = v) ∧
      ((∀ e ∈ a.Entries, isInt64 (e.Source + e.SourceRange)) →
        (∀ e ∈ a.Entries, ¬ (e.Source ≤ v ∧ v < e.Source + e.SourceRange)) →
        a.Lookup v = v) := by
  refine ⟨fun h => lookupLoop_of_not_covers a.Entries v h, fun h => ?_, fun hov h => ?_⟩
  · unfold AlmanacMap.Lookup
    rw [h]
    rfl
  · refine lookupLoop_of_not_covers a.Entries v (fun e he hc => h e he ?_)
    exact (Entry.covers_iff_interval (hov e he) v).mp hc

/-- Witness of C2 on the seed-to-soil map of the sample: no entry covers seed
14, which is returned unchanged. -/
theorem AlmanacMap.Lookup_identity_witness :
    AlmanacMap.Lookup ⟨"seed", "soil", [⟨50, 98, 2⟩, ⟨52, 50, 48⟩]⟩ 14 = 14 ∧
      AlmanacMap.Lookup ⟨"seed", "soil", []⟩ 14 = 14 :=
  ⟨(AlmanacMap.Lookup_identity ⟨"seed", "soil", [⟨50, 98, 2⟩, ⟨52, 50, 48⟩]⟩ 14).1
      (by decide),
    (AlmanacMap.Lookup_identity ⟨"seed", "soil", []⟩ 14).2.1 rfl⟩

/-- C3: with entries that may overlap, a covered value is translated by the
entry of least index whose guard holds; the entries after it play no part. -/
theorem AlmanacMap.Lookup_first_match (a : AlmanacMap) (v : Int) (i : Nat) (e : Entry)
    (hi : a.Entries[i]? = some e) (hcov : e.covers v)
    (hfirst : ∀ (j : Nat) (e' : Entry), j < i → a.Entries[j]? = some e' → ¬ e'.covers v) :
    a.Lookup v = wrap64 (v - e.Source + e.Destination) := by
  unfold AlmanacMap.Lookup
  rw [lookupLoop_first a.Entries v i e hi hcov hfirst, Entry.translate_eq]

/-- Witness of C3: two overlapping entries both cover 5, the first one is
used. -/
theorem AlmanacMap.Lookup_first_match_witness :
    AlmanacMap.Lookup ⟨"a", "b", [⟨100, 0, 10⟩, ⟨200, 0, 10⟩]⟩ 5
      = wrap64 (5 - 0 + 100) :=
  AlmanacMap.Lookup_first_match ⟨"a", "b", [⟨100, 0, 10⟩, ⟨200, 0, 10⟩]⟩ 5 0 ⟨100, 0, 10⟩
    (by simp) (by decide) (by intro j e' hj; omega)

/-- C4: `Almanac.Lookup` returns the left fold of the stage lookups over
`Maps` in order (the seed itself when there is no map), in part 2 and in
part 1, and the value does not depend on the sink `Log`. -/
theorem Almanac.Lookup_fold (a : Part2.Almanac) (b : Part1.Almanac) (seed : Int) :
    ((a.Lookup seed).1 = a.Maps.foldl (fun location m => m.Lookup location) seed ∧
        (Part2.Almanac.Lookup { a with Maps := [] } seed).1 = seed ∧
        ∀ log : Writer, (Part2.Almanac.Lookup { a with Log := log } seed).1
          = (a.Lookup seed).1) ∧
      ((b.Lookup seed).1 = b.Maps.foldl (fun location m => m.Lookup location) seed ∧
        (Part1.Almanac.Lookup { b with Maps := [] } seed).1 = seed ∧
        ∀ log : Writer, (Part1.Almanac.Lookup { b with Log := log } seed).1
          = (b.Lookup seed).1) := by
  have h2 : ∀ a : Part2.Almanac,
      (a.Lookup seed).1 = a.Maps.foldl (fun location m => m.Lookup location) seed := by
    intro a
    simp only [Part2.Almanac.Lookup]
    exact lookupMaps_fst _ _ _
  have h1 : ∀ b : Part1.Almanac,
      (b.Lookup seed).1 = b.Maps.foldl (fun location m => m.Lookup location) seed := by
    intro b
    simp only [Part1.Almanac.Lookup]
    exact lookupMaps_fst _ _ _
  refine ⟨⟨h2 a, ?_, fun log => ?_⟩, ⟨h1 b, ?_, fun log => ?_⟩⟩
  · rw [h2]; rfl
  · rw [h2, h2]
  · rw [h1]; rfl
  · rw [h1, h1]

/-! ## Running minimum with the sentinel `-1` -/

theorem keepLowest_of_neg {lowest : Int} (x : Int) (h : lowest < 0) :
    keepLowest lowest x = x := by
  unfold keepLowest
  rw [if_pos (Or.inl h)]

theorem keepLowest_of_nonneg {lowest : Int} (x : Int) (h : 0 ≤ lowest) :
    keepLowest lowest x = min lowest x := by
  unfold keepLowest
  by_cases hx : x < lowest
  · rw [if_pos (Or.inr hx)]; omega
  · rw [if_neg (by omega)]; omega

theorem foldl_keepLowest_nonneg (l : List Int) :
    ∀ init : Int, 0 ≤ init → (∀ x ∈ l, 0 ≤ x) →
      0 ≤ l.foldl keepLowest init ∧ l.foldl keepLowest init ≤ init ∧
      (∀ x ∈ l, l.foldl keepLowest init ≤ x) ∧
      (l.foldl keepLowest init = init ∨ l.foldl keepLowest init ∈ l) := by
  induction l with
  | nil => intro init h0 _; simp [h0]
  | cons y t ih =>
    intro init h0 hnn
    have hy : 0 ≤ y := hnn y (List.mem_cons_self y t)
    have ht : ∀ x ∈ t, 0 ≤ x := fun x hx => hnn x (List.mem_cons_of_mem y hx)
    rw [List.foldl_cons, keepLowest_of_nonneg y h0]
    obtain ⟨r0, rle, rall, rmem⟩ := ih (min init y) (by omega) ht
    refine ⟨r0, by omega, ?_, ?_⟩
    · intro x hx
      rcases List.mem_cons.mp hx with rfl | hx
      · omega
      · exact rall x hx
    · rcases rmem with h | h
      · rcases min_choice init y with hm | hm
        · left; rw [h, hm]
        · right; rw [h, hm]; exact List.mem_cons_self y t
      · right; exact List.mem_cons_of_mem y h

theorem foldl_keepLowest_sentinel (l : List Int) (hne : l ≠ []) (hnn : ∀ x ∈ l, 0 ≤ x)
    (init : Int) (hinit : init < 0) :
    l.foldl keepLowest init ∈ l ∧ ∀ x ∈ l, l.foldl keepLowest init ≤ x := by
  cases l with
  | nil => exact absurd rfl hne
  | cons y t =>
    have hy : 0 ≤ y := hnn y (List.mem_cons_self y t)
    have ht : ∀ x ∈ t, 0 ≤ x := fun x hx => hnn x (List.mem_cons_of_mem y hx)
    rw [List.foldl_cons, keepLowest_of_neg y hinit]
    obtain ⟨_, rle, rall, rmem⟩ := foldl_keepLowest_nonneg t y hy ht
    refine ⟨?_, ?_⟩
    · rcases rmem with h | h
      · rw [h]; exact List.mem_cons_self y t
      · exact List.mem_cons_of_mem y h
    · intro x hx
      rcases List.mem_cons.mp hx with rfl | hx
      · exact rle
      · exact rall x hx

theorem foldl_keepLowest_perm (l₁ l₂ : List Int) (hperm : l₁.Perm l₂)
    (hnn : ∀ x ∈ l₂, 0 ≤ x) (init : Int) (hinit : init < 0) :
    l₁.foldl keepLowest init = l₂.foldl keepLowest init := by
  by_cases hne : l₂ = []
  · subst hne
    rw [List.Perm.eq_nil hperm]
  · have hne₁ : l₁ ≠ [] := fun h => hne (by rw [h] at hperm; exact (List.Perm.eq_nil hperm.symm))
    have hnn₁ : ∀ x ∈ l₁, 0 ≤ x := fun x hx => hnn x (hperm.mem_iff.mp hx)
    obtain ⟨m₁, le₁⟩ := foldl_keepLowest_sentinel l₁ hne₁ hnn₁ init hinit
    obtain ⟨m₂, le₂⟩ := foldl_keepLowest_sentinel l₂ hne hnn init hinit
    exact le_antisymm (le₁ _ (hperm.mem_iff.mpr m₂)) (le₂ _ (hperm.mem_iff.mp m₁))

/-! ## The linear scan of a sub-range -/

theorem Part2.Almanac.lowestLoop_exit (a : Part2.Almanac) (end_ seed lowest : Int)
    (h : ¬ seed < end_) : a.lowestLoop end_ seed lowest = lowest := by
  rw [Part2.Almanac.lowestLoop, if_neg h]

theorem Part2.Almanac.lowestLoop_step (a : Part2.Almanac) (end_ seed lowest : Int)
    (h : seed < end_) :
    a.lowestLoop end_ seed lowest
      = a.lowestLoop end_ (seed + 1) (keepLowest lowest (a.Lookup seed).1) := by
  rw [Part2.Almanac.lowestLoop, if_pos h]

theorem Part2.Almanac.lowestLoop_nonneg (a : Part2.Almanac) (end_ : Int) :
    ∀ (n : Nat) (seed lowest : Int), (end_ - seed).toNat = n → 0 ≤ lowest →
      (∀ s, seed ≤ s → s < end_ → 0 ≤ (a.Lookup s).1) →
      0 ≤ a.lowestLoop end_ seed lowest ∧ a.lowestLoop end_ seed lowest ≤ lowest ∧
      (∀ s, seed ≤ s → s < end_ → a.lowestLoop end_ seed lowest ≤ (a.Lookup s).1) ∧
      (a.lowestLoop end_ seed lowest = lowest ∨
        ∃ s0, seed ≤ s0 ∧ s0 < end_ ∧ a.lowestLoop end_ seed lowest = (a.Lookup s0).1) := by
  intro n
  induction n with
  | zero =>
    intro seed lowest hn h0 _
    have hge : ¬ seed < end_ := by omega
    rw [Part2.Almanac.lowestLoop_exit a end_ seed lowest hge]
    exact ⟨h0, le_refl _, fun s h1 h2 => absurd (lt_of_le_of_lt h1 h2) hge, Or.inl rfl⟩
  | succ k ih =>
    intro seed lowest hn h0 hnn
    have hlt : seed < end_ := by omega
    have hloc : 0 ≤ (a.Lookup seed).1 := hnn seed (le_refl _) hlt
    rw [Part2.Almanac.lowestLoop_step a end_ seed lowest hlt, keepLowest_of_nonneg _ h0]
    obtain ⟨r0, rle, rall, rmem⟩ := ih (seed + 1) (min lowest (a.Lookup seed).1)
      (by omega) (by omega) (fun s h1 h2 => hnn s (by omega) h2)
    refine ⟨r0, by omega, ?_, ?_⟩
    · intro s h1 h2
      rcases eq_or_lt_of_le h1 with heq | hlt'
      · subst heq; omega
      · exact rall s (by omega) h2
    · rcases rmem with h | ⟨s0, h1, h2, h3⟩
      · rcases min_choice lowest (a.Lookup seed).1 with hm | hm
        · left; rw [h, hm]
        · right; exact ⟨seed, le_refl _, hlt, by rw [h, hm]⟩
      · right; exact ⟨s0, by omega, h2, h3⟩

theorem Part1.Almanac.lowestLoop_eq_foldl (a : Part1.Almanac) (seeds : List Int) :
    ∀ lowest : Int, a.lowestLoop seeds lowest
      = (seeds.map (fun seed => (a.Lookup seed).1)).foldl keepLowest lowest := by
  induction seeds with
  | nil => intro lowest; rfl
  | cons seed seeds ih =>
    intro lowest
    simp only [Part1.Almanac.lowestLoop, List.map_cons, List.foldl_cons]
    exact ih _

/-! ## Claims on the minimum loops -/

/-- C5: on a non-empty sub-range `[start, end)` whose locations are all
non-negative, `LowestLocationByRange` returns the location of some seed of the
sub-range, and that value is at most the location of every seed of the
sub-range. -/
theorem Almanac.LowestLocationByRange_min (a : Part2.Almanac) (start end_ : Int)
    (hlt : start < end_)
    (hnn : ∀ s, start ≤ s → s < end_ → 0 ≤ (a.Lookup s).1) :
    (∃ s0, start ≤ s0 ∧ s0 < end_ ∧ a.LowestLocationByRange start end_ = (a.Lookup s0).1) ∧
      (∀ s, start ≤ s → s < end_ → a.LowestLocationByRange start end_ ≤ (a.Lookup s).1) := by
  have hloc : 0 ≤ (a.Lookup start).1 := hnn start (le_refl _) hlt
  unfold Part2.Almanac.LowestLocationByRange
  rw [Part2.Almanac.lowestLoop_step a end_ start (-1) hlt,
    keepLowest_of_neg _ (by decide : (-1 : Int) < 0)]
  obtain ⟨_, rle, rall, rmem⟩ := Part2.Almanac.lowestLoop_nonneg a end_ (end_ - (start + 1)).toNat
    (start + 1) (a.Lookup start).1 rfl hloc (fun s h1 h2 => hnn s (by omega) h2)
  refine ⟨?_, ?_⟩
  · rcases rmem with h | ⟨s0, h1, h2, h3⟩
    · exact ⟨start, le_refl _, hlt, h⟩
    · exact ⟨s0, by omega, h2, h3⟩
  · intro s h1 h2
    rcases eq_or_lt_of_le h1 with heq | hlt'
    · subst heq; exact rle
    · exact rall s (by omega) h2

/-- Witness of C5: the sub-range `[3, 6)` of an almanac without maps. -/
theorem Almanac.LowestLocationByRange_min_witness :
    (∃ s0, (3 : Int) ≤ s0 ∧ s0 < 6 ∧
        Part2.Almanac.LowestLocationByRange ⟨[], [], ⟨[]⟩⟩ 3 6
          = (Part2.Almanac.Lookup ⟨[], [], ⟨[]⟩⟩ s0).1) ∧
      (∀ s, (3 : Int) ≤ s → s < 6 →
        Part2.Almanac.LowestLocationByRange ⟨[], [], ⟨[]⟩⟩ 3 6
          ≤ (Part2.Almanac.Lookup ⟨[], [], ⟨[]⟩⟩ s).1) :=
  Almanac.LowestLocationByRange_min ⟨[], [], ⟨[]⟩⟩ 3 6 (by decide)
    (by
      intro s h1 _
      simp only [Part2.Almanac.Lookup, lookupMaps]
      omega)

/-- C6: for a non-empty flat seed list whose locations are all non-negative,
the part 1 `LowestLocation` returns the location of some listed seed, and that
value is at most the location of every listed seed. -/
theorem Part1.Almanac.LowestLocation_min (a : Part1.Almanac) (hne : a.Seeds ≠ [])
    (hnn : ∀ seed ∈ a.Seeds, 0 ≤ (a.Lookup seed).1) :
    (∃ seed ∈ a.Seeds, a.LowestLocation = (a.Lookup seed).1) ∧
      (∀ seed ∈ a.Seeds, a.LowestLocation ≤ (a.Lookup seed).1) := by
  unfold Part1.Almanac.LowestLocation
  rw [Part1.Almanac.lowestLoop_eq_foldl]
  have hne' : a.Seeds.map (fun seed => (a.Lookup seed).1) ≠ [] := by
    simpa using hne
  have hnn' : ∀ x ∈ a.Seeds.map (fun seed => (a.Lookup seed).1), 0 ≤ x := by
    intro x hx
    obtain ⟨seed, hs, rfl⟩ := List.mem_map.mp hx
    exact hnn seed hs
  obtain ⟨hmem, hall⟩ := foldl_keepLowest_sentinel _ hne' hnn' (-1) (by decide)
  refine ⟨?_, ?_⟩
  · obtain ⟨seed, hs, heq⟩ := List.mem_map.mp hmem
    exact ⟨seed, hs, heq.symm⟩
  · intro seed hs
    exact hall _ (List.mem_map.mpr ⟨seed, hs, rfl⟩)

/-- Witness of C6: the four sample seeds in an almanac without maps. -/
theorem Part1.Almanac.LowestLocation_min_witness :
    (∃ seed ∈ [(79 : Int), 14, 55, 13],
        Part1.Almanac.LowestLocation ⟨[79, 14, 55, 13], [], ⟨[]⟩⟩
          = (Part1.Almanac.Lookup ⟨[79, 14, 55, 13], [], ⟨[]⟩⟩ seed).1) ∧
      (∀ seed ∈ [(79 : Int), 14, 55, 13],
        Part1.Almanac.LowestLocation ⟨[79, 14, 55, 13], [], ⟨[]⟩⟩
          ≤ (Part1.Almanac.Lookup ⟨[79, 14, 55, 13], [], ⟨[]⟩⟩ seed).1) :=
  Part1.Almanac.LowestLocation_min ⟨[79, 14, 55, 13], [], ⟨[]⟩⟩ (by simp)
    (by
      intro seed hs
      simp only [Part1.Almanac.Lookup, lookupMaps]
      simp only [List.mem_cons, List.mem_singleton, List.not_mem_nil, or_false] at hs
      omega)

/-! ## Aggregation of the work-unit results -/

theorem Part2.aggregate_perm (results arrival : List Int) (hnn : ∀ res ∈ results, 0 ≤ res)
    (hperm : arrival.Perm results) : Part2.aggregate arrival = Part2.aggregate results := by
  unfold Part2.aggregate
  exact foldl_keepLowest_perm arrival results hperm hnn (-1) (by decide)

theorem Part2.arrivalOrder_one (results : List Int) : Part2.arrivalOrder 1 results results :=
  ⟨List.Perm.refl results, fun _ => rfl⟩

theorem Part2.collect_eq (blocked : Prop) [Decidable blocked] (hfree : ¬ blocked) (n : Int)
    (results arrival : List Int) (hnn : ∀ res ∈ results, 0 ≤ res)
    (horder : Part2.arrivalOrder n results arrival) :
    (if results = [] then (if arrival = [] then some (Part2.aggregate arrival) else none)
      else if blocked then none
      else if Part2.arrivalOrder n results arrival then some (Part2.aggregate arrival)
      else none) = some (Part2.aggregate results) := by
  have hagg := Part2.aggregate_perm results arrival hnn horder.1
  by_cases hres : results = []
  · have harr : arrival = [] := by
      have h := horder.1
      rw [hres] at h
      exact List.Perm.eq_nil h
    rw [if_pos hres, if_pos harr, hagg]
  · rw [if_neg hres, if_neg hfree, if_pos horder, hagg]

/-- C7: on the almanac with the single seed range `[10, 13)` and a map sending
seed 13 to location 0 (the locations of seeds 10 to 13 are 10, 11, 12, 0, all
non-negative), one worker with batch size 2 dispatches `[10, 12)` and
`[12, 14)` and returns 0 (also with four workers and the results arriving in
the other order), while batch size 4 and the unbatched search return 10. -/
theorem Almanac.partition_divergence :
    (∀ s : Int, 10 ≤ s → s < 14 → 0 ≤ (Part2.overshootAlmanac.Lookup s).1) ∧
      Part2.dispatchAll 2 3 Part2.overshootAlmanac.SeedRanges = some [⟨10, 2⟩, ⟨12, 2⟩] ∧
      Part2.overshootAlmanac.LowestLocationThreadedBatched 1 2 3 [10, 0] = some 0 ∧
      Part2.overshootAlmanac.LowestLocationThreadedBatched 4 2 3 [0, 10] = some 0 ∧
      Part2.overshootAlmanac.LowestLocationThreadedBatched 1 4 2 [10] = some 10 ∧
      Part2.overshootAlmanac.LowestLocationThreaded 1 [10] = some 10 := by
  refine ⟨?_, by decide, ?_, ?_, ?_, ?_⟩
  · intro s h1 h2
    simp only [Part2.overshootAlmanac, Part2.Almanac.Lookup, lookupMaps, AlmanacMap.Lookup,
      AlmanacMap.lookupLoop, Entry.covers, Entry.translate, wrap64]
    split <;> omega
  · simp [Part2.overshootAlmanac, Part2.Almanac.LowestLocationThreadedBatched,
      Part2.dispatchAll, Part2.dispatchLoop, Part2.SeedRange.End, Part2.Almanac.unitResult,
      Part2.arrivalOrder, Part2.aggregate, Part2.Almanac.LowestLocationByRange,
      Part2.Almanac.lowestLoop, Part2.Almanac.Lookup, lookupMaps, AlmanacMap.Lookup,
      AlmanacMap.lookupLoop, Entry.covers, Entry.translate, wrap64, keepLowest]
  · simp [Part2.overshootAlmanac, Part2.Almanac.LowestLocationThreadedBatched,
      Part2.dispatchAll, Part2.dispatchLoop, Part2.SeedRange.End, Part2.Almanac.unitResult,
      Part2.arrivalOrder, Part2.aggregate, Part2.Almanac.LowestLocationByRange,
      Part2.Almanac.lowestLoop, Part2.Almanac.Lookup, lookupMaps, AlmanacMap.Lookup,
      AlmanacMap.lookupLoop, Entry.covers, Entry.translate, wrap64, keepLowest]
    exact List.Perm.swap 10 0 []
  · simp [Part2.overshootAlmanac, Part2.Almanac.LowestLocationThreadedBatched,
      Part2.dispatchAll, Part2.dispatchLoop, Part2.SeedRange.End, Part2.Almanac.unitResult,
      Part2.arrivalOrder, Part2.aggregate, Part2.Almanac.LowestLocationByRange,
      Part2.Almanac.lowestLoop, Part2.Almanac.Lookup, lookupMaps, AlmanacMap.Lookup,
      AlmanacMap.lookupLoop, Entry.covers, Entry.translate, wrap64, keepLowest]
  · simp [Part2.overshootAlmanac, Part2.Almanac.LowestLocationThreaded,
      Part2.Almanac.workerResults, Part2.Almanac.LowestLocationBySeedRangeIdx,
      Part2.SeedRange.End, Part2.arrivalOrder, Part2.aggregate,
      Part2.Almanac.LowestLocationByRange, Part2.Almanac.lowestLoop, Part2.Almanac.Lookup,
      lookupMaps, AlmanacMap.Lookup, AlmanacMap.lookupLoop, Entry.covers, Entry.translate,
      wrap64, keepLowest, List.range, List.range.loop]

/-- C8: for the seed range `[10, 13)` and batch size 2 the dispatcher emits
the work units `(10, 2)` and `(12, 2)`: the last one is not shortened, it ends
at 14 and so holds the value 13, which is not below `r.End() = 13`. -/
theorem dispatchLoop_overshoot :
    Part2.dispatchLoop 2 ⟨10, 3⟩ 3 10 = some [⟨10, 2⟩, ⟨12, 2⟩] ∧
      Part2.SeedRange.End ⟨10, 3⟩ = 13 ∧
      Part2.SeedRange.End ⟨12, 2⟩ = 14 ∧
      ((12 : Int) ≤ 13 ∧ 13 < Part2.SeedRange.End ⟨12, 2⟩ ∧
        ¬ 13 < Part2.SeedRange.End ⟨10, 3⟩) := by
  decide

/-- C9 fails as stated: on the almanac without maps and with the seed ranges
`[-5, -4)` and `[3, 4)` the work-unit results are -5 and 3; one worker (results
in dispatch order) returns 3, two workers with the results arriving in the
other order return -5. -/
theorem Almanac.arrival_order_counterexample :
    Part2.negativeAlmanac.LowestLocationThreaded 1 [-5, 3] = some 3 ∧
      Part2.negativeAlmanac.LowestLocationThreaded 2 [3, -5] = some (-5) ∧
      Part2.aggregate [-5, 3] ≠ Part2.aggregate [3, -5] := by
  refine ⟨?_, ?_, by decide⟩
  · simp [Part2.negativeAlmanac, Part2.Almanac.LowestLocationThreaded,
      Part2.Almanac.workerResults, Part2.Almanac.LowestLocationBySeedRangeIdx,
      Part2.SeedRange.End, Part2.arrivalOrder, Part2.aggregate,
      Part2.Almanac.LowestLocationByRange, Part2.Almanac.lowestLoop, Part2.Almanac.Lookup,
      lookupMaps, wrap64, keepLowest, List.range, List.range.loop]
  · simp [Part2.negativeAlmanac, Part2.Almanac.LowestLocationThreaded,
      Part2.Almanac.workerResults, Part2.Almanac.LowestLocationBySeedRangeIdx,
      Part2.SeedRange.End, Part2.arrivalOrder, Part2.aggregate,
      Part2.Almanac.LowestLocationByRange, Part2.Almanac.lowestLoop, Part2.Almanac.Lookup,
      lookupMaps, wrap64, keepLowest, List.range, List.range.loop]
    exact List.Perm.swap (-5) 3 []

/-- C9, amended: when the work-unit results are all non-negative, the
running-minimum fold returns the same value for every arrival order, so with
`n >= 1` workers both `LowestLocationThreaded` and
`LowestLocationThreadedBatched` return what one worker returns. -/
theorem Almanac.arrival_order_invariant (a : Part2.Almanac) (n batchSize : Int) (fuel : Nat)
    (results arrival : List Int) (hn : 1 ≤ n) (hnn : ∀ res ∈ results, 0 ≤ res)
    (horder : Part2.arrivalOrder n results arrival) :
    Part2.aggregate arrival = Part2.aggregate results ∧
      (a.workerResults (List.range a.SeedRanges.length) = some results →
        a.LowestLocationThreaded n arrival = a.LowestLocationThreaded 1 results) ∧
      ((Part2.dispatchAll batchSize fuel a.SeedRanges).map (List.map a.unitResult)
          = some results →
        a.LowestLocationThreadedBatched n batchSize fuel arrival
          = a.LowestLocationThreadedBatched 1 batchSize fuel results) := by
  refine ⟨Part2.aggregate_perm results arrival hnn horder.1, fun hres => ?_, fun hres => ?_⟩
  · unfold Part2.Almanac.LowestLocationThreaded
    rw [hres]
    simp only
    rw [Part2.collect_eq (n ≤ 0) (by omega) n results arrival hnn horder,
      Part2.collect_eq ((1 : Int) ≤ 0) (by decide) 1 results results hnn
        (Part2.arrivalOrder_one results)]
  · unfold Part2.Almanac.LowestLocationThreadedBatched
    cases hd : Part2.dispatchAll batchSize fuel a.SeedRanges with
    | none => rw [hd] at hres; simp at hres
    | some units =>
      rw [hd] at hres
      simp only [Option.map_some', Option.some.injEq] at hres
      simp only [hres]
      rw [if_neg (by omega : ¬ n < 0), if_neg (by decide : ¬ (1 : Int) < 0),
        Part2.collect_eq (n = 0) (by omega) n results arrival hnn horder,
        Part2.collect_eq ((1 : Int) = 0) (by decide) 1 results results hnn
          (Part2.arrivalOrder_one results)]

/-- Witness of C9, amended: the seed ranges `[5, 6)` and `[3, 4)` without maps
give the results 5 and 3; two workers whose results arrive as 3, 5 return what
one worker returns. -/
theorem Almanac.arrival_order_invariant_witness :
    Part2.aggregate [3, 5] = Part2.aggregate [5, 3] ∧
      Part2.descendingAlmanac.LowestLocationThreaded 2 [3, 5]
        = Part2.descendingAlmanac.LowestLocationThreaded 1 [5, 3] ∧
      Part2.descendingAlmanac.LowestLocationThreadedBatched 2 1 2 [3, 5]
        = Part2.descendingAlmanac.LowestLocationThreadedBatched 1 1 2 [5, 3] :=
  have h := Almanac.arrival_order_invariant Part2.descendingAlmanac 2 1 2 [5, 3] [3, 5]
    (by decide) (by decide) ⟨List.Perm.swap 5 3 [], by decide⟩
  ⟨h.1,
    h.2.1 (by
      simp [Part2.descendingAlmanac, Part2.Almanac.workerResults,
        Part2.Almanac.LowestLocationBySeedRangeIdx, Part2.SeedRange.End,
        Part2.Almanac.LowestLocationByRange, Part2.Almanac.lowestLoop, Part2.Almanac.Lookup,
        lookupMaps, wrap64, keepLowest, List.range, List.range.loop]),
    h.2.2 (by
      simp [Part2.descendingAlmanac, Part2.dispatchAll, Part2.dispatchLoop,
        Part2.Almanac.unitResult, Part2.SeedRange.End, Part2.Almanac.LowestLocationByRange,
        Part2.Almanac.lowestLoop, Part2.Almanac.Lookup, lookupMaps, wrap64, keepLowest])⟩

/-- C10: on the almanac without maps and with the seed ranges `[5, 6)` and
`[3, 4)` (positive lengths, non-negative locations) the per-range minima are 5
and 3, and the sequential `LowestLocation` of part 2 returns 5: the second
range is compared with itself (`lowestInRange < lowestInRange`), never with the
running minimum, so the first range's minimum is kept. -/
theorem Almanac.LowestLocation_keeps_first :
    Part2.descendingAlmanac.LowestLocation = some 5 ∧
      Part2.descendingAlmanac.LowestLocationByRange 5 (Part2.SeedRange.End ⟨5, 1⟩) = 5 ∧
      Part2.descendingAlmanac.LowestLocationByRange 3 (Part2.SeedRange.End ⟨3, 1⟩) = 3 := by
  refine ⟨?_, ?_, ?_⟩
  · simp [Part2.descendingAlmanac, Part2.Almanac.LowestLocation,
      Part2.Almanac.lowestLocationLoop, Part2.Almanac.LowestLocationBySeedRangeIdx,
      Part2.SeedRange.End, Part2.Almanac.LowestLocationByRange, Part2.Almanac.lowestLoop,
      Part2.Almanac.Lookup, lookupMaps, wrap64, keepLowest]
  · simp [Part2.descendingAlmanac, Part2.SeedRange.End, Part2.Almanac.LowestLocationByRange,
      Part2.Almanac.lowestLoop, Part2.Almanac.Lookup, lookupMaps, wrap64, keepLowest]
  · simp [Part2.descendingAlmanac, Part2.SeedRange.End, Part2.Almanac.LowestLocationByRange,
      Part2.Almanac.lowestLoop, Part2.Almanac.Lookup, lookupMaps, wrap64, keepLowest]

/-! ## Empty and zero-length seed domains -/

/-- C11 fails as stated: with no seed at all every search returns the
sentinel `-1` and reports no error, in part 1 and in part 2. -/
theorem Almanac.empty_domain_counterexample :
    Part1.Almanac.LowestLocation ⟨[], [], ⟨[]⟩⟩ = -1 ∧
      Part2.Almanac.LowestLocation ⟨[], [], ⟨[]⟩⟩ = some (-1) ∧
      Part2.Almanac.LowestLocationThreaded ⟨[], [], ⟨[]⟩⟩ 4 [] = some (-1) ∧
      Part2.Almanac.LowestLocationThreadedBatched ⟨[], [], ⟨[]⟩⟩ 4 1000 1 [] = some (-1) := by
  decide

/-- C11, amended: for an almanac without seeds (part 1) or without seed
ranges (part 2), `LowestLocation`, `LowestLocationThreaded` with any worker
count and `LowestLocationThreadedBatched` with a worker count `n >= 0` return
the sentinel `-1`; no error is reported. -/
theorem Almanac.empty_domain_sentinel (a : Part2.Almanac) (b : Part1.Almanac)
    (n m batchSize : Int) (fuel : Nat) (ha : a.SeedRanges = []) (hb : b.Seeds = [])
    (hn : 0 ≤ n) :
    b.LowestLocation = -1 ∧ a.LowestLocation = some (-1) ∧
      a.LowestLocationThreaded m [] = some (-1) ∧
      a.LowestLocationThreadedBatched n batchSize fuel [] = some (-1) := by
  refine ⟨?_, ?_, ?_, ?_⟩
  · unfold Part1.Almanac.LowestLocation
    rw [hb]
    rfl
  · unfold Part2.Almanac.LowestLocation
    rw [ha]
    rfl
  · unfold Part2.Almanac.LowestLocationThreaded
    rw [ha]
    rfl
  · unfold Part2.Almanac.LowestLocationThreadedBatched
    rw [ha, if_neg (by omega)]
    rfl

/-- Witness of C11, amended: the almanacs of the sample maps' first stage
without any seed. -/
theorem Almanac.empty_domain_sentinel_witness :
    Part1.Almanac.LowestLocation ⟨[], [sampleSeedToSoil], ⟨[]⟩⟩ = -1 ∧
      Part2.Almanac.LowestLocation ⟨[], [sampleSeedToSoil], ⟨[]⟩⟩ = some (-1) ∧
      Part2.Almanac.LowestLocationThreaded ⟨[], [sampleSeedToSoil], ⟨[]⟩⟩ 10 [] = some (-1) ∧
      Part2.Almanac.LowestLocationThreadedBatched ⟨[], [sampleSeedToSoil], ⟨[]⟩⟩ 10 1000000 1 []
        = some (-1) :=
  Almanac.empty_domain_sentinel ⟨[], [sampleSeedToSoil], ⟨[]⟩⟩ ⟨[], [sampleSeedToSoil], ⟨[]⟩⟩
    10 10 1000000 1 rfl rfl (by decide)

/-- C12: inserting the zero-length seed range `(20, 0)` after the seed range
`[10, 11)` of an almanac without maps changes what the code returns.
`LowestLocationThreaded` gets the result `-1` for the empty range and returns
`-1` with one worker (10 when, with two workers, the `-1` arrives first)
where it returned 10; the sequential `LowestLocation` panics on the division
by `r.Range` where it returned 10; only `LowestLocationThreadedBatched`, which
emits no work unit for the empty range, still returns 10. -/
theorem Almanac.zero_length_range_divergence :
    Part2.singleAlmanac.LowestLocationThreaded 1 [10] = some 10 ∧
      Part2.zeroLengthAlmanac.LowestLocationThreaded 1 [10, -1] = some (-1) ∧
      Part2.zeroLengthAlmanac.LowestLocationThreaded 2 [-1, 10] = some 10 ∧
      Part2.singleAlmanac.LowestLocation = some 10 ∧
      Part2.zeroLengthAlmanac.LowestLocation = none ∧
      Part2.singleAlmanac.LowestLocationThreadedBatched 1 1 2 [10] = some 10 ∧
      Part2.zeroLengthAlmanac.LowestLocationThreadedBatched 1 1 2 [10] = some 10 := by
  refine ⟨?_, ?_, ?_, ?_, ?_, ?_, ?_⟩
  · simp [Part2.singleAlmanac, Part2.Almanac.LowestLocationThreaded,
      Part2.Almanac.workerResults, Part2.Almanac.LowestLocationBySeedRangeIdx,
      Part2.SeedRange.End, Part2.arrivalOrder, Part2.aggregate,
      Part2.Almanac.LowestLocationByRange, Part2.Almanac.lowestLoop, Part2.Almanac.Lookup,
      lookupMaps, wrap64, keepLowest, List.range, List.range.loop]
  · simp [Part2.zeroLengthAlmanac, Part2.Almanac.LowestLocationThreaded,
      Part2.Almanac.workerResults, Part2.Almanac.LowestLocationBySeedRangeIdx,
      Part2.SeedRange.End, Part2.arrivalOrder, Part2.aggregate,
      Part2.Almanac.LowestLocationByRange, Part2.Almanac.lowestLoop, Part2.Almanac.Lookup,
      lookupMaps, wrap64, keepLowest, List.range, List.range.loop]
  · simp [Part2.zeroLengthAlmanac, Part2.Almanac.LowestLocationThreaded,
      Part2.Almanac.workerResults, Part2.Almanac.LowestLocationBySeedRangeIdx,
      Part2.SeedRange.End, Part2.arrivalOrder, Part2.aggregate,
      Part2.Almanac.LowestLocationByRange, Part2.Almanac.lowestLoop, Part2.Almanac.Lookup,
      lookupMaps, wrap64, keepLowest, List.range, List.range.loop]
    exact List.Perm.swap 10 (-1) []
  · simp [Part2.singleAlmanac, Part2.Almanac.LowestLocation,
      Part2.Almanac.lowestLocationLoop, Part2.Almanac.LowestLocationBySeedRangeIdx,
      Part2.SeedRange.End, Part2.Almanac.LowestLocationByRange, Part2.Almanac.lowestLoop,
      Part2.Almanac.Lookup, lookupMaps, wrap64, keepLowest]
  · simp [Part2.zeroLengthAlmanac, Part2.Almanac.LowestLocation,
      Part2.Almanac.lowestLocationLoop, Part2.Almanac.LowestLocationBySeedRangeIdx,
      Part2.SeedRange.End, Part2.Almanac.LowestLocationByRange, Part2.Almanac.lowestLoop,
      Part2.Almanac.Lookup, lookupMaps, wrap64, keepLowest]
  · simp [Part2.singleAlmanac, Part2.Almanac.LowestLocationThreadedBatched,
      Part2.dispatchAll, Part2.dispatchLoop, Part2.SeedRange.End, Part2.Almanac.unitResult,
      Part2.arrivalOrder, Part2.aggregate, Part2.Almanac.LowestLocationByRange,
      Part2.Almanac.lowestLoop, Part2.Almanac.Lookup, lookupMaps, wrap64, keepLowest]
  · simp [Part2.zeroLengthAlmanac, Part2.Almanac.LowestLocationThreadedBatched,
      Part2.dispatchAll, Part2.dispatchLoop, Part2.SeedRange.End, Part2.Almanac.unitResult,
      Part2.arrivalOrder, Part2.aggregate, Part2.Almanac.LowestLocationByRange,
      Part2.Almanac.lowestLoop, Part2.Almanac.Lookup, lookupMaps, wrap64, keepLowest]

/-! ## The sample map, the seed count and the order of the entries -/

/-- C13: on the seed-to-soil map of the sample, with the entries `50 98 2` and
`52 50 48`, every integer `v` is looked up as `v + 2` when `50 <= v < 98`, as
`v - 48` when `98 <= v < 100`, and as `v` otherwise; the listed seeds map as
listed. -/
theorem AlmanacMap.Lookup_sample (v : Int) :
    sampleSeedToSoil.Lookup v
        = (if 50 ≤ v ∧ v < 98 then v + 2 else if 98 ≤ v ∧ v < 100 then v - 48 else v) ∧
      sampleSeedToSoil.Lookup 79 = 81 ∧ sampleSeedToSoil.Lookup 14 = 14 ∧
      sampleSeedToSoil.Lookup 55 = 57 ∧ sampleSeedToSoil.Lookup 13 = 13 ∧
      sampleSeedToSoil.Lookup 0 = 0 ∧ sampleSeedToSoil.Lookup 1 = 1 ∧
      sampleSeedToSoil.Lookup 48 = 48 ∧ sampleSeedToSoil.Lookup 49 = 49 ∧
      sampleSeedToSoil.Lookup 50 = 52 ∧ sampleSeedToSoil.Lookup 51 = 53 ∧
      sampleSeedToSoil.Lookup 96 = 98 ∧ sampleSeedToSoil.Lookup 97 = 99 ∧
      sampleSeedToSoil.Lookup 98 = 50 ∧ sampleSeedToSoil.Lookup 99 = 51 := by
  refine ⟨?_, by decide, by decide, by decide, by decide, by decide, by decide, by decide,
    by decide, by decide, by decide, by decide, by decide, by decide, by decide⟩
  simp only [sampleSeedToSoil, AlmanacMap.Lookup, AlmanacMap.lookupLoop, Entry.covers,
    Entry.translate, wrap64]
  split_ifs <;> omega

theorem Part2.Almanac.totalLoop_eq (rs : List Part2.SeedRange) :
    ∀ t : Int, Part2.Almanac.totalLoop rs (wrap64 t)
      = wrap64 (t + (rs.map Part2.SeedRange.Range).sum) := by
  induction rs with
  | nil => intro t; simp [Part2.Almanac.totalLoop]
  | cons r rs ih =>
    intro t
    simp only [Part2.Almanac.totalLoop, List.map_cons, List.sum_cons]
    rw [ih (wrap64 t + r.Range), add_assoc, wrap64_add_left]

theorem Part2.Almanac.TotalSeeds_eq (a : Part2.Almanac) :
    a.TotalSeeds = wrap64 ((a.SeedRanges.map Part2.SeedRange.Range).sum) := by
  unfold Part2.Almanac.TotalSeeds
  have h := Part2.Almanac.totalLoop_eq a.SeedRanges 0
  rw [zero_add] at h
  rw [← h]
  rfl

/-- C17: `TotalSeeds` is the sum of the `Range` fields of the seed ranges,
accumulated in `int`: the wrapped sum in general, the mathematical sum when
that fits in 64 bits, zero for no seed range; almanacs with the same list of
lengths have the same count, whatever their `Start` fields and `Maps`. -/
theorem Almanac.TotalSeeds_sum (a b : Part2.Almanac) :
    a.TotalSeeds = wrap64 ((a.SeedRanges.map Part2.SeedRange.Range).sum) ∧
      (isInt64 ((a.SeedRanges.map Part2.SeedRange.Range).sum) →
        a.TotalSeeds = (a.SeedRanges.map Part2.SeedRange.Range).sum) ∧
      Part2.Almanac.TotalSeeds { a with SeedRanges := [] } = 0 ∧
      (b.SeedRanges.map Part2.SeedRange.Range = a.SeedRanges.map Part2.SeedRange.Range →
        b.TotalSeeds = a.TotalSeeds) := by
  refine ⟨Part2.Almanac.TotalSeeds_eq a, fun h => ?_, rfl, fun h => ?_⟩
  · rw [Part2.Almanac.TotalSeeds_eq, wrap64_of_isInt64 h]
  · rw [Part2.Almanac.TotalSeeds_eq, Part2.Almanac.TotalSeeds_eq, h]

/-- Witness of C17: the two seed ranges of the sample, `79 14` and `55 13`,
count 27 seeds, as do the ranges `0 14` and `0 13` in an almanac with a
map. -/
theorem Almanac.TotalSeeds_sum_witness :
    Part2.Almanac.TotalSeeds ⟨[⟨79, 14⟩, ⟨55, 13⟩], [], ⟨[]⟩⟩ = 27 ∧
      Part2.Almanac.TotalSeeds ⟨[⟨0, 14⟩, ⟨0, 13⟩], [sampleSeedToSoil], ⟨[]⟩⟩
        = Part2.Almanac.TotalSeeds ⟨[⟨79, 14⟩, ⟨55, 13⟩], [], ⟨[]⟩⟩ :=
  ⟨(Almanac.TotalSeeds_sum ⟨[⟨79, 14⟩, ⟨55, 13⟩], [], ⟨[]⟩⟩
      ⟨[⟨0, 14⟩, ⟨0, 13⟩], [sampleSeedToSoil], ⟨[]⟩⟩).2.1 (by decide),
    (Almanac.TotalSeeds_sum ⟨[⟨79, 14⟩, ⟨55, 13⟩], [], ⟨[]⟩⟩
      ⟨[⟨0, 14⟩, ⟨0, 13⟩], [sampleSeedToSoil], ⟨[]⟩⟩).2.2.2 rfl⟩

theorem Entry.guardDisjoint_symm : Symmetric Entry.guardDisjoint := by
  intro e₁ e₂ h v hv
  exact h v ⟨hv.2, hv.1⟩

theorem lookupLoop_guardDisjoint (es : List Entry)
    (hdisj : es.Pairwise Entry.guardDisjoint)
    (e : Entry) (he : e ∈ es) (v : Int) (hv : e.covers v) :
    AlmanacMap.lookupLoop es v = e.translate v := by
  induction es with
  | nil => cases he
  | cons hd tl ih =>
    rw [List.pairwise_cons] at hdisj
    by_cases hc : hd.covers v
    · simp only [AlmanacMap.lookupLoop, if_pos hc]
      rcases List.mem_cons.mp he with rfl | hmem
      · rfl
      · exact absurd ⟨hc, hv⟩ (hdisj.1 e hmem v)
    · simp only [AlmanacMap.lookupLoop, if_neg hc]
      rcases List.mem_cons.mp he with rfl | hmem
      · exact absurd hv hc
      · exact ih hdisj.2 hmem

theorem lookupLoop_perm (es₁ es₂ : List Entry) (hperm : es₁.Perm es₂)
    (hdisj : es₁.Pairwise Entry.guardDisjoint) (v : Int) :
    AlmanacMap.lookupLoop es₁ v = AlmanacMap.lookupLoop es₂ v := by
  have hdisj₂ : es₂.Pairwise Entry.guardDisjoint :=
    (hperm.pairwise_iff (fun {_ _} h => Entry.guardDisjoint_symm h)).mp hdisj
  by_cases h : ∃ e ∈ es₁, e.covers v
  · obtain ⟨e, he, hv⟩ := h
    rw [lookupLoop_guardDisjoint es₁ hdisj e he v hv,
      lookupLoop_guardDisjoint es₂ hdisj₂ e (hperm.mem_iff.mp he) v hv]
  · have h₁ : ∀ e ∈ es₁, ¬ e.covers v := fun e he hv => h ⟨e, he, hv⟩
    have h₂ : ∀ e ∈ es₂, ¬ e.covers v := fun e he => h₁ e (hperm.mem_iff.mpr he)
    rw [lookupLoop_of_not_covers es₁ v h₁, lookupLoop_of_not_covers es₂ v h₂]

/-- C18: two maps whose entry lists are permutations of each other look every
value up alike when the entries are pairwise disjoint: both for intervals as
the scan evaluates them (guards that hold for no common value) and for the
mathematical intervals `[Source, Source+SourceRange)` when no
`Source+SourceRange` overflows. -/
theorem AlmanacMap.Lookup_reorder (a b : AlmanacMap) (hperm : a.Entries.Perm b.Entries) :
    (a.Entries.Pairwise Entry.guardDisjoint → ∀ v : Int, a.Lookup v = b.Lookup v) ∧
      (a.Entries.Pairwise Entry.disjoint →
        (∀ e ∈ a.Entries, isInt64 (e.Source + e.SourceRange)) →
        ∀ v : Int, a.Lookup v = b.Lookup v) := by
  refine ⟨fun hdisj v => lookupLoop_perm a.Entries b.Entries hperm hdisj v,
    fun hdisj hov v => lookupLoop_perm a.Entries b.Entries hperm ?_ v⟩
  refine List.Pairwise.imp_of_mem ?_ hdisj
  intro e₁ e₂ h₁ h₂ hd x hx
  exact hd x ⟨(Entry.covers_iff_interval (hov e₁ h₁) x).mp hx.1,
    (Entry.covers_iff_interval (hov e₂ h₂) x).mp hx.2⟩

/-- Witness of C18: the seed-to-soil map of the sample and the same map with
its two entries sorted by `Source`. -/
theorem AlmanacMap.Lookup_reorder_witness :
    sampleSeedToSoil.Lookup 79
      = AlmanacMap.Lookup ⟨"seed", "soil", [⟨52, 50, 48⟩, ⟨50, 98, 2⟩]⟩ 79 :=
  (AlmanacMap.Lookup_reorder sampleSeedToSoil ⟨"seed", "soil", [⟨52, 50, 48⟩, ⟨50, 98, 2⟩]⟩
    (show [(⟨50, 98, 2⟩ : Entry), ⟨52, 50, 48⟩].Perm [⟨52, 50, 48⟩, ⟨50, 98, 2⟩] from
      List.Perm.swap _ _ [])).2
    (by
      simp only [sampleSeedToSoil, List.pairwise_cons, List.mem_singleton, forall_eq,
        List.not_mem_nil, false_implies, implies_true, List.Pairwise.nil, and_true]
      intro v hv
      simp only [Entry.interval] at hv
      omega)
    (by
      intro e he
      simp only [sampleSeedToSoil, List.mem_cons, List.mem_singleton, List.not_mem_nil,
        or_false] at he
      rcases he with rfl | rfl <;> decide)
    79

/-! ## The dispatch loop of `LowestLocationThreadedBatched` -/

theorem Part2.dispatchLoop_run (batchSize : Int) (r : Part2.SeedRange) (hB : 1 ≤ batchSize) :
    ∀ (m : Nat) (b : Int) (fuel : Nat), -9223372036854775808 ≤ b →
      b + (m : Int) * batchSize < 9223372036854775808 →
      r.End ≤ b + (m : Int) * batchSize →
      (∀ j : Nat, j < m → b + (j : Int) * batchSize < r.End) → m < fuel →
      Part2.dispatchLoop batchSize r fuel b
        = some ((List.range m).map
            (fun k : Nat => ⟨b + (k : Int) * batchSize, min batchSize r.Range⟩)) := by
  intro m
  induction m with
  | zero =>
    intro b fuel _ _ hend _ hfuel
    obtain ⟨f, rfl⟩ : ∃ f, fuel = f + 1 := ⟨fuel - 1, by omega⟩
    have hge : ¬ b < r.End := by
      simp only [Nat.cast_zero, zero_mul, add_zero] at hend
      omega
    simp only [Part2.dispatchLoop, if_neg hge, List.range_zero, List.map_nil]
  | succ k ih =>
    intro b fuel hlo hhi hend hbelow hfuel
    obtain ⟨f, rfl⟩ : ∃ f, fuel = f + 1 := ⟨fuel - 1, by omega⟩
    have hcast : ((k + 1 : Nat) : Int) * batchSize = (k : Int) * batchSize + batchSize := by
      push_cast; ring
    have hk : 0 ≤ (k : Int) * batchSize := mul_nonneg (Int.ofNat_nonneg k) (by omega)
    have hlt : b < r.End := by
      have h := hbelow 0 (Nat.succ_pos k)
      simpa using h
    have hwrap : wrap64 (b + batchSize) = b + batchSize :=
      wrap64_of_isInt64 ⟨by omega, by omega⟩
    have hrec := ih (b + batchSize) f (by omega) (by omega) (by omega)
      (fun j hj => by
        have h := hbelow (j + 1) (by omega)
        have hc : ((j + 1 : Nat) : Int) * batchSize = (j : Int) * batchSize + batchSize := by
          push_cast; ring
        omega)
      (by omega)
    simp only [Part2.dispatchLoop, if_pos hlt, hwrap, hrec, List.range_succ_eq_map,
      List.map_cons, List.map_map, Nat.cast_zero, zero_mul, add_zero]
    congr 2
    apply List.map_congr_left
    intro j _
    simp only [Function.comp_apply, Nat.cast_succ]
    congr 1
    ring

theorem Part2.dispatchLoop_starve (batchSize : Int) (r : Part2.SeedRange) (hB : 1 ≤ batchSize) :
    ∀ (fuel m : Nat) (b : Int), -9223372036854775808 ≤ b →
      b + (m : Int) * batchSize < 9223372036854775808 →
      (∀ j : Nat, j < m → b + (j : Int) * batchSize < r.End) → fuel ≤ m →
      Part2.dispatchLoop batchSize r fuel b = none := by
  intro fuel
  induction fuel with
  | zero => intro m b _ _ _ _; rfl
  | succ f ih =>
    intro m b hlo hhi hbelow hfuel
    obtain ⟨k, rfl⟩ : ∃ k, m = k + 1 := ⟨m - 1, by omega⟩
    have hcast : ((k + 1 : Nat) : Int) * batchSize = (k : Int) * batchSize + batchSize := by
      push_cast; ring
    have hk : 0 ≤ (k : Int) * batchSize := mul_nonneg (Int.ofNat_nonneg k) (by omega)
    have hlt : b < r.End := by
      have h := hbelow 0 (Nat.succ_pos k)
      simpa using h
    have hwrap : wrap64 (b + batchSize) = b + batchSize :=
      wrap64_of_isInt64 ⟨by omega, by omega⟩
    have hrec := ih k (b + batchSize) (by omega) (by omega)
      (fun j hj => by
        have h := hbelow (j + 1) (by omega)
        have hc : ((j + 1 : Nat) : Int) * batchSize = (j : Int) * batchSize + batchSize := by
          push_cast; ring
        omega)
      (by omega)
    simp only [Part2.dispatchLoop, if_pos hlt, hwrap, hrec]

theorem Part2.iterations_spec (batchSize : Int) (r : Part2.SeedRange) (hB : 1 ≤ batchSize) :
    r.Range ≤ (Part2.iterations batchSize r : Int) * batchSize ∧
      (∀ j : Nat, j < Part2.iterations batchSize r → (j : Int) * batchSize < r.Range) := by
  unfold Part2.iterations
  have hdiv := Int.ediv_add_emod (r.Range + batchSize - 1) batchSize
  have hmod0 := Int.emod_nonneg (r.Range + batchSize - 1) (by omega : batchSize ≠ 0)
  have hmodlt := Int.emod_lt_of_pos (r.Range + batchSize - 1) (by omega : 0 < batchSize)
  generalize (r.Range + batchSize - 1) / batchSize = q at hdiv
  generalize (r.Range + batchSize - 1) % batchSize = rem at hdiv hmod0 hmodlt
  rcases le_or_lt q 0 with hq | hq
  · have h0 : q.toNat = 0 := Int.toNat_eq_zero.mpr hq
    rw [h0]
    have hprod : batchSize * q ≤ 0 := mul_nonpos_of_nonneg_of_nonpos (by omega) hq
    refine ⟨by simp only [Nat.cast_zero, zero_mul]; omega, fun j hj => absurd hj (by omega)⟩
  · have hcast : (q.toNat : Int) = q := Int.toNat_of_nonneg (by omega)
    rw [hcast]
    refine ⟨by rw [mul_comm]; omega, fun j hj => ?_⟩
    have hj' : (j : Int) ≤ q - 1 := by omega
    have hmul : (j : Int) * batchSize ≤ (q - 1) * batchSize :=
      mul_le_mul_of_nonneg_right hj' (by omega)
    have hexp : (q - 1) * batchSize = batchSize * q - batchSize := by ring
    omega

theorem Part2.iterations_of_nonpos (batchSize : Int) (r : Part2.SeedRange) (hB : 1 ≤ batchSize)
    (hL : r.Range ≤ 0) : Part2.iterations batchSize r = 0 := by
  have h := (Part2.iterations_spec batchSize r hB).2
  by_contra hne
  have h0 := h 0 (Nat.pos_of_ne_zero hne)
  simp only [Nat.cast_zero, zero_mul] at h0
  omega

theorem Part2.iterations_pos (batchSize : Int) (r : Part2.SeedRange) (hB : 1 ≤ batchSize)
    (hL : 1 ≤ r.Range) : 0 < Part2.iterations batchSize r := by
  have h := (Part2.iterations_spec batchSize r hB).1
  by_contra hne
  have h0 : Part2.iterations batchSize r = 0 := by omega
  rw [h0] at h
  simp only [Nat.cast_zero, zero_mul] at h
  omega

theorem Part2.dispatchLoop_batchUnits (batchSize : Int) (r : Part2.SeedRange)
    (hB : 1 ≤ batchSize) (hfit : r.fits batchSize) (fuel : Nat)
    (hfuel : Part2.iterations batchSize r < fuel) :
    Part2.dispatchLoop batchSize r fuel r.Start = some (Part2.batchUnits batchSize r) := by
  obtain ⟨hs, he, hb⟩ := hfit
  have hspec := Part2.iterations_spec batchSize r hB
  have hend : r.End = r.Start + r.Range := wrap64_of_isInt64 he
  exact Part2.dispatchLoop_run batchSize r hB (Part2.iterations batchSize r) r.Start fuel hs.1
    hb.2 (by rw [hend]; omega) (fun j hj => by rw [hend]; have := hspec.2 j hj; omega) hfuel

theorem Part2.dispatchLoop_short (batchSize : Int) (r : Part2.SeedRange)
    (hB : 1 ≤ batchSize) (hfit : r.fits batchSize) (fuel : Nat)
    (hfuel : fuel ≤ Part2.iterations batchSize r) :
    Part2.dispatchLoop batchSize r fuel r.Start = none := by
  obtain ⟨hs, he, hb⟩ := hfit
  have hspec := Part2.iterations_spec batchSize r hB
  have hend : r.End = r.Start + r.Range := wrap64_of_isInt64 he
  exact Part2.dispatchLoop_starve batchSize r hB fuel (Part2.iterations batchSize r) r.Start hs.1
    hb.2 (fun j hj => by rw [hend]; have := hspec.2 j hj; omega) hfuel

theorem Part2.Almanac.workerResults_drop (a : Part2.Almanac) :
    ∀ (suffix : List Part2.SeedRange) (k : Nat), a.SeedRanges.drop k = suffix →
      a.workerResults (List.range' k suffix.length) = some (suffix.map a.unitResult) := by
  intro suffix
  induction suffix with
  | nil => intro k _; rfl
  | cons r rest ih =>
    intro k hk
    have hget : a.SeedRanges[k]? = some r := by
      have h := List.getElem?_drop a.SeedRanges k 0
      rw [hk] at h
      simpa using h.symm
    have hrest : a.SeedRanges.drop (k + 1) = rest := by
      rw [← List.drop_drop, hk]
      rfl
    simp only [List.length_cons, List.range'_succ, Part2.Almanac.workerResults,
      Part2.Almanac.LowestLocationBySeedRangeIdx, hget, ih (k + 1) hrest, List.map_cons,
      Part2.Almanac.unitResult]

theorem Part2.Almanac.workerResults_eq (a : Part2.Almanac) :
    a.workerResults (List.range a.SeedRanges.length) = some (a.SeedRanges.map a.unitResult) := by
  rw [List.range_eq_range']
  exact Part2.Almanac.workerResults_drop a a.SeedRanges 0 rfl

theorem Part2.dispatchAll_eq (batchSize : Int) (hB : 1 ≤ batchSize) :
    ∀ (rs : List Part2.SeedRange), (∀ r ∈ rs, r.fits batchSize) → ∀ fuel : Nat,
      (rs.map (Part2.iterations batchSize)).sum < fuel →
      Part2.dispatchAll batchSize fuel rs = some (Part2.allUnits batchSize rs) := by
  intro rs
  induction rs with
  | nil => intro _ fuel _; rfl
  | cons r rs ih =>
    intro hfit fuel hfuel
    simp only [List.map_cons, List.sum_cons] at hfuel
    have h1 := Part2.dispatchLoop_batchUnits batchSize r hB (hfit r (List.mem_cons_self r rs))
      fuel (by omega)
    have h2 := ih (fun x hx => hfit x (List.mem_cons_of_mem r hx)) fuel (by omega)
    simp only [Part2.dispatchAll, h1, h2, Part2.allUnits]

theorem Part2.dispatchLoop_zero_batch (r : Part2.SeedRange) (b : Int) (hb : isInt64 b)
    (hlt : b < r.End) : ∀ fuel : Nat, Part2.dispatchLoop 0 r fuel b = none := by
  intro fuel
  induction fuel with
  | zero => rfl
  | succ f ih =>
    have hwrap : wrap64 (b + 0) = b := by
      rw [add_zero]
      exact wrap64_of_isInt64 hb
    simp only [Part2.dispatchLoop, if_pos hlt, hwrap, ih]

/-! ## Claims on the work units -/

/-- C14 fails as stated: for the seed range `(9223372036854775807, 1)` and the
batch size 1 `r.End()` wraps around to the least `int`, the dispatch loop is
not entered and no work unit is emitted. -/
theorem dispatchLoop_wrapped_end_counterexample :
    Part2.SeedRange.End ⟨9223372036854775807, 1⟩ = -9223372036854775808 ∧
      Part2.dispatchLoop 1 ⟨9223372036854775807, 1⟩ 2 9223372036854775807 = some [] := by
  decide

/-- C14, amended: `LowestLocationThreaded` has one work unit per seed range,
in order, whose result is `LowestLocationByRange(r.Start, r.End())`; and for
a seed range `r` with `r.Range >= 1` whose `r.Start + r.Range` does not
overflow, the dispatch loop with `batchSize = r.Range` emits exactly the one
work unit `SeedRange{r.Start, r.Range}` (it needs two evaluations of the loop
condition, one is not enough). -/
theorem Almanac.one_unit_per_range (a : Part2.Almanac) (r : Part2.SeedRange) (fuel : Nat)
    (hL : 1 ≤ r.Range) (he : isInt64 (r.Start + r.Range)) (hfuel : 2 ≤ fuel) :
    a.workerResults (List.range a.SeedRanges.length)
        = some (a.SeedRanges.map (fun x => a.LowestLocationByRange x.Start x.End)) ∧
      Part2.dispatchLoop r.Range r fuel r.Start = some [⟨r.Start, r.Range⟩] ∧
      Part2.dispatchLoop r.Range r 1 r.Start = none := by
  have hend : r.End = r.Start + r.Range := wrap64_of_isInt64 he
  have hlt : r.Start < r.End := by rw [hend]; omega
  have hwrap : wrap64 (r.Start + r.Range) = r.Start + r.Range := wrap64_of_isInt64 he
  have hge : ¬ r.Start + r.Range < r.End := by rw [hend]; omega
  refine ⟨Part2.Almanac.workerResults_eq a, ?_, ?_⟩
  · obtain ⟨f, rfl⟩ : ∃ f, fuel = f + 2 := ⟨fuel - 2, by omega⟩
    simp only [Part2.dispatchLoop, if_pos hlt, hwrap, if_neg hge, min_self]
  · simp only [Part2.dispatchLoop, if_pos hlt]

/-- Witness of C14, amended: the first seed range `79 14` of the sample with
the batch size 14. -/
theorem Almanac.one_unit_per_range_witness :
    Part2.Almanac.workerResults ⟨[⟨79, 14⟩, ⟨55, 13⟩], [], ⟨[]⟩⟩ (List.range 2)
        = some [Part2.Almanac.LowestLocationByRange ⟨[⟨79, 14⟩, ⟨55, 13⟩], [], ⟨[]⟩⟩ 79
            (Part2.SeedRange.End ⟨79, 14⟩),
          Part2.Almanac.LowestLocationByRange ⟨[⟨79, 14⟩, ⟨55, 13⟩], [], ⟨[]⟩⟩ 55
            (Part2.SeedRange.End ⟨55, 13⟩)] ∧
      Part2.dispatchLoop 14 ⟨79, 14⟩ 2 79 = some [⟨79, 14⟩] ∧
      Part2.dispatchLoop 14 ⟨79, 14⟩ 1 79 = none :=
  Almanac.one_unit_per_range ⟨[⟨79, 14⟩, ⟨55, 13⟩], [], ⟨[]⟩⟩ ⟨79, 14⟩ 2
    (by decide) (by decide) (by decide)

/-- C20 fails as stated.  With the negative batch size `-9223372036854775808`
the loop of the seed range `(-1, 1)` ends after one iteration, because
`b += batchSize` wraps around to the greatest `int`.  With the batch size 10
the seed range `(9223372036854775802, 5)`, whose `Start + Range` does not
overflow, needs more than the one iteration `ceil(5/10)`: `b += batchSize`
wraps around to a negative value, which is below `r.End()` again. -/
theorem dispatchLoop_termination_counterexample :
    Part2.dispatchLoop (-9223372036854775808) ⟨-1, 1⟩ 2 (-1)
        = some [⟨-1, -9223372036854775808⟩] ∧
      (isInt64 (9223372036854775802 + 5) ∧
        Part2.iterations 10 ⟨9223372036854775802, 5⟩ = 1 ∧
        Part2.dispatchLoop 10 ⟨9223372036854775802, 5⟩ 2 9223372036854775802 = none ∧
        Part2.dispatchLoop 10 ⟨9223372036854775802, 5⟩ 50 9223372036854775802 = none) := by
  decide

/-- C20, amended: for a batch size `>= 1` and seed ranges whose loop variable
stays in the 64 bit range (`Start`, `Start + Range` and
`Start + ceil(Range/batchSize) * batchSize` are representable), the dispatch
loop of each range ends after exactly `m = ceil(Range / batchSize)` iterations
(`Range <= m * batchSize`, `j * batchSize < Range` for `j < m`, and `m = 0`
when `Range <= 0`): with more than `m` evaluations of the loop condition it
returns `m` work units, with at most `m` it has not ended; the dispatcher of
the whole list ends.  For the batch size 0 the loop of a range with
`Range >= 1` and no overflow of `Start + Range` never ends. -/
theorem dispatch_terminates (batchSize : Int) (rs : List Part2.SeedRange)
    (hB : 1 ≤ batchSize) (hfit : ∀ r ∈ rs, r.fits batchSize) :
    (∀ r ∈ rs,
        (r.Range ≤ (Part2.iterations batchSize r : Int) * batchSize ∧
          (∀ j : Nat, j < Part2.iterations batchSize r → (j : Int) * batchSize < r.Range) ∧
          (r.Range ≤ 0 → Part2.iterations batchSize r = 0)) ∧
        (∀ fuel : Nat, Part2.iterations batchSize r < fuel →
          ∃ units, Part2.dispatchLoop batchSize r fuel r.Start = some units ∧
            units.length = Part2.iterations batchSize r) ∧
        (∀ fuel : Nat, fuel ≤ Part2.iterations batchSize r →
          Part2.dispatchLoop batchSize r fuel r.Start = none)) ∧
      (∃ fuel0 : Nat, ∀ fuel : Nat, fuel0 ≤ fuel →
        ∃ units, Part2.dispatchAll batchSize fuel rs = some units) ∧
      (∀ r : Part2.SeedRange, 1 ≤ r.Range → isInt64 r.Start → isInt64 (r.Start + r.Range) →
        ∀ fuel : Nat, Part2.dispatchLoop 0 r fuel r.Start = none) := by
  refine ⟨fun r hr => ⟨⟨(Part2.iterations_spec batchSize r hB).1,
      (Part2.iterations_spec batchSize r hB).2, Part2.iterations_of_nonpos batchSize r hB⟩,
      fun fuel hfuel => ?_, fun fuel hfuel => ?_⟩, ?_, ?_⟩
  · refine ⟨Part2.batchUnits batchSize r,
      Part2.dispatchLoop_batchUnits batchSize r hB (hfit r hr) fuel hfuel, ?_⟩
    simp only [Part2.batchUnits, List.length_map, List.length_range]
  · exact Part2.dispatchLoop_short batchSize r hB (hfit r hr) fuel hfuel
  · refine ⟨(rs.map (Part2.iterations batchSize)).sum + 1, fun fuel hfuel => ?_⟩
    exact ⟨Part2.allUnits batchSize rs,
      Part2.dispatchAll_eq batchSize hB rs hfit fuel (by omega)⟩
  · intro r hL hs he fuel
    have hend : r.End = r.Start + r.Range := wrap64_of_isInt64 he
    exact Part2.dispatchLoop_zero_batch r r.Start hs (by rw [hend]; omega) fuel

/-- Witness of C20, amended: the two seed ranges `79 14` and `55 13` of the
sample with the batch size 5. -/
theorem dispatch_terminates_witness :
    (∃ units, Part2.dispatchLoop 5 ⟨79, 14⟩ 4 79 = some units ∧ units.length = 3) ∧
      Part2.dispatchLoop 5 ⟨79, 14⟩ 3 79 = none ∧
      (∀ fuel : Nat, Part2.dispatchLoop 0 ⟨79, 14⟩ fuel 79 = none) :=
  have h := dispatch_terminates 5 [⟨79, 14⟩, ⟨55, 13⟩] (by decide)
    (by
      intro r hr
      simp only [List.mem_cons, List.mem_singleton, List.not_mem_nil, or_false] at hr
      rcases hr with rfl | rfl <;> decide)
  ⟨(h.1 ⟨79, 14⟩ (by simp)).2.1 4 (by decide), (h.1 ⟨79, 14⟩ (by simp)).2.2 3 (by decide),
    h.2.2 ⟨79, 14⟩ (by decide) (by decide) (by decide)⟩

/-! ## What the batched search evaluates and returns -/

theorem Part2.Almanac.byRange_spec (a : Part2.Almanac) (start end_ : Int)
    (hlt : start < end_)
    (hnn : ∀ s, start ≤ s → s < end_ → 0 ≤ (a.Lookup s).1) :
    (∃ s0, start ≤ s0 ∧ s0 < end_ ∧ a.LowestLocationByRange start end_ = (a.Lookup s0).1) ∧
      (∀ s, start ≤ s → s < end_ → a.LowestLocationByRange start end_ ≤ (a.Lookup s).1) := by
  have hloc : 0 ≤ (a.Lookup start).1 := hnn start (le_refl _) hlt
  unfold Part2.Almanac.LowestLocationByRange
  rw [Part2.Almanac.lowestLoop_step a end_ start (-1) hlt,
    keepLowest_of_neg _ (by decide : (-1 : Int) < 0)]
  obtain ⟨_, rle, rall, rmem⟩ := Part2.Almanac.lowestLoop_nonneg a end_ (end_ - (start + 1)).toNat
    (start + 1) (a.Lookup start).1 rfl hloc (fun s h1 h2 => hnn s (by omega) h2)
  refine ⟨?_, ?_⟩
  · rcases rmem with h | ⟨s0, h1, h2, h3⟩
    · exact ⟨start, le_refl _, hlt, h⟩
    · exact ⟨s0, by omega, h2, h3⟩
  · intro s h1 h2
    rcases eq_or_lt_of_le h1 with heq | hlt'
    · subst heq; exact rle
    · exact rall s (by omega) h2

theorem Part2.mem_batchUnits (batchSize : Int) (r u : Part2.SeedRange) :
    u ∈ Part2.batchUnits batchSize r ↔
      ∃ k : Nat, k < Part2.iterations batchSize r ∧
        u = ⟨r.Start + (k : Int) * batchSize, min batchSize r.Range⟩ := by
  unfold Part2.batchUnits
  constructor
  · intro h
    obtain ⟨k, hk, rfl⟩ := List.mem_map.mp h
    exact ⟨k, List.mem_range.mp hk, rfl⟩
  · rintro ⟨k, hk, rfl⟩
    exact List.mem_map.mpr ⟨k, List.mem_range.mpr hk, rfl⟩

theorem Part2.mem_allUnits (batchSize : Int) (u : Part2.SeedRange) :
    ∀ rs : List Part2.SeedRange,
      u ∈ Part2.allUnits batchSize rs ↔ ∃ r ∈ rs, u ∈ Part2.batchUnits batchSize r := by
  intro rs
  induction rs with
  | nil => simp [Part2.allUnits]
  | cons r rs ih => simp [Part2.allUnits, ih]

theorem Part2.unit_bounds (batchSize : Int) (r : Part2.SeedRange) (hB : 1 ≤ batchSize)
    (hL : 1 ≤ r.Range) (hfit : r.fits batchSize) (k : Nat)
    (hk : k < Part2.iterations batchSize r) :
    0 ≤ (k : Int) * batchSize ∧
      r.Start + (k : Int) * batchSize + min batchSize r.Range
        ≤ r.Start + (Part2.iterations batchSize r : Int) * batchSize ∧
      Part2.SeedRange.End ⟨r.Start + (k : Int) * batchSize, min batchSize r.Range⟩
        = r.Start + (k : Int) * batchSize + min batchSize r.Range := by
  obtain ⟨hs, _, hb⟩ := hfit
  have hk0 : 0 ≤ (k : Int) * batchSize := mul_nonneg (Int.ofNat_nonneg k) (by omega)
  have hk1 : ((k : Int) + 1) * batchSize ≤ (Part2.iterations batchSize r : Int) * batchSize :=
    mul_le_mul_of_nonneg_right (by omega) (by omega)
  have hexp : ((k : Int) + 1) * batchSize = (k : Int) * batchSize + batchSize := by ring
  have hmin : min batchSize r.Range ≤ batchSize := min_le_left _ _
  have hmin1 : 1 ≤ min batchSize r.Range := le_min hB hL
  refine ⟨hk0, by omega, ?_⟩
  show wrap64 (r.Start + (k : Int) * batchSize + min batchSize r.Range) = _
  exact wrap64_of_isInt64 ⟨by have := hs.1; omega, by have := hb.2; omega⟩

theorem Part2.Almanac.unitResult_spec (a : Part2.Almanac) (batchSize : Int)
    (r u : Part2.SeedRange) (hB : 1 ≤ batchSize) (hL : 1 ≤ r.Range) (hfit : r.fits batchSize)
    (hnn : ∀ x, r.Start ≤ x →
      x < r.Start + (Part2.iterations batchSize r : Int) * batchSize → 0 ≤ (a.Lookup x).1)
    (hu : u ∈ Part2.batchUnits batchSize r) :
    (∃ x, u.contains x ∧ a.unitResult u = (a.Lookup x).1) ∧
      (∀ x, u.contains x → a.unitResult u ≤ (a.Lookup x).1) ∧ 0 ≤ a.unitResult u := by
  obtain ⟨k, hk, rfl⟩ := (Part2.mem_batchUnits batchSize r u).mp hu
  obtain ⟨hk0, hle, hend⟩ := Part2.unit_bounds batchSize r hB hL hfit k hk
  have hmin1 : 1 ≤ min batchSize r.Range := le_min hB hL
  unfold Part2.Almanac.unitResult
  rw [hend]
  obtain ⟨⟨x0, h1, h2, h3⟩, hall⟩ := Part2.Almanac.byRange_spec a
    (r.Start + (k : Int) * batchSize)
    (r.Start + (k : Int) * batchSize + min batchSize r.Range) (by omega)
    (fun x hx1 hx2 => hnn x (by omega) (by omega))
  refine ⟨⟨x0, ⟨h1, h2⟩, h3⟩, fun x hx => hall x hx.1 hx.2, ?_⟩
  rw [h3]
  exact hnn x0 (by omega) (by omega)

theorem Part2.batchUnits_cover (batchSize : Int) (r : Part2.SeedRange) (hB : 1 ≤ batchSize)
    (x : Int) (hx : r.contains x) : ∃ u ∈ Part2.batchUnits batchSize r, u.contains x := by
  obtain ⟨hx1, hx2⟩ := hx
  have hspec := Part2.iterations_spec batchSize r hB
  rcases le_or_lt r.Range batchSize with hle | hgt
  · have hpos : 0 < Part2.iterations batchSize r :=
      Part2.iterations_pos batchSize r hB (by omega)
    refine ⟨⟨r.Start + ((0 : Nat) : Int) * batchSize, min batchSize r.Range⟩,
      (Part2.mem_batchUnits batchSize r _).mpr ⟨0, hpos, rfl⟩, ?_⟩
    simp only [Part2.SeedRange.contains, Nat.cast_zero, zero_mul, add_zero, min_eq_right hle]
    exact ⟨hx1, hx2⟩
  · have hdiv := Int.ediv_add_emod (x - r.Start) batchSize
    have hmod0 := Int.emod_nonneg (x - r.Start) (by omega : batchSize ≠ 0)
    have hmodlt := Int.emod_lt_of_pos (x - r.Start) (by omega : 0 < batchSize)
    have hq0 : 0 ≤ (x - r.Start) / batchSize := Int.ediv_nonneg (by omega) (by omega)
    generalize hq : (x - r.Start) / batchSize = q at hdiv hq0
    generalize (x - r.Start) % batchSize = rem at hdiv hmod0 hmodlt
    have hcast : (q.toNat : Int) = q := Int.toNat_of_nonneg hq0
    have hqlt : q.toNat < Part2.iterations batchSize r := by
      by_contra hge
      have hge' : (Part2.iterations batchSize r : Int) ≤ q := by omega
      have hmul : (Part2.iterations batchSize r : Int) * batchSize ≤ q * batchSize :=
        mul_le_mul_of_nonneg_right hge' (by omega)
      have hcomm : q * batchSize = batchSize * q := mul_comm _ _
      have := hspec.1
      omega
    refine ⟨⟨r.Start + (q.toNat : Int) * batchSize, min batchSize r.Range⟩,
      (Part2.mem_batchUnits batchSize r _).mpr ⟨q.toNat, hqlt, rfl⟩, ?_⟩
    have hcomm : q * batchSize = batchSize * q := mul_comm _ _
    simp only [Part2.SeedRange.contains, hcast, min_eq_left (le_of_lt hgt)]
    constructor <;> omega

theorem Part2.batchUnits_exact (batchSize : Int) (r u : Part2.SeedRange) (hB : 1 ≤ batchSize)
    (hex : r.Range < batchSize ∨ batchSize ∣ r.Range)
    (hu : u ∈ Part2.batchUnits batchSize r) (x : Int) (hx : u.contains x) : r.contains x := by
  obtain ⟨k, hk, rfl⟩ := (Part2.mem_batchUnits batchSize r u).mp hu
  have hspec := Part2.iterations_spec batchSize r hB
  have hklt := hspec.2 k hk
  have hk0 : 0 ≤ (k : Int) * batchSize := mul_nonneg (Int.ofNat_nonneg k) (by omega)
  have hmin : min batchSize r.Range ≤ batchSize := min_le_left _ _
  have hmin' : min batchSize r.Range ≤ r.Range := min_le_right _ _
  simp only [Part2.SeedRange.contains] at hx ⊢
  obtain ⟨hx1, hx2⟩ := hx
  refine ⟨by omega, ?_⟩
  rcases hex with hlt | ⟨c, hc⟩
  · have hkz : k = 0 := by
      by_contra hne
      have h1 : (1 : Int) ≤ (k : Int) := by omega
      have hmul : 1 * batchSize ≤ (k : Int) * batchSize :=
        mul_le_mul_of_nonneg_right h1 (by omega)
      omega
    subst hkz
    simp only [Nat.cast_zero, zero_mul, add_zero] at hx2
    omega
  · have hkc : (k : Int) < c := by
      by_contra hge
      have hge' : c ≤ (k : Int) := by omega
      have hmul : c * batchSize ≤ (k : Int) * batchSize :=
        mul_le_mul_of_nonneg_right hge' (by omega)
      have hcomm : c * batchSize = batchSize * c := mul_comm _ _
      omega
    have hmul : ((k : Int) + 1) * batchSize ≤ c * batchSize :=
      mul_le_mul_of_nonneg_right (by omega) (by omega)
    have hexp : ((k : Int) + 1) * batchSize = (k : Int) * batchSize + batchSize := by ring
    have hcomm : c * batchSize = batchSize * c := mul_comm _ _
    omega

/-- C19 fails as stated.  For the seed range `(9223372036854775800, 7)` and the
batch size 100 the one work unit `(9223372036854775800, 7)` is expected, but
`b += batchSize` wraps around to a negative value and the dispatch loop goes
on.  And when non-negative locations are asked only of the seeds of the seed
ranges: with the seed ranges `[10, 13)` and `[20, 21)`, seed 13 mapped to -7
and the batch size 2, the results are 10, -7 and 20 and one worker returns 20,
above the location 10 of seed 10. -/
theorem Almanac.batched_units_counterexample :
    (isInt64 (9223372036854775800 + 7) ∧
        Part2.batchUnits 100 ⟨9223372036854775800, 7⟩ = [⟨9223372036854775800, 7⟩] ∧
        Part2.dispatchLoop 100 ⟨9223372036854775800, 7⟩ 2 9223372036854775800 = none) ∧
      ((∀ r ∈ Part2.negativeOvershootAlmanac.SeedRanges, ∀ x : Int, r.contains x →
          0 ≤ (Part2.negativeOvershootAlmanac.Lookup x).1) ∧
        Part2.negativeOvershootAlmanac.LowestLocationThreadedBatched 1 2 3 [10, -7, 20]
          = some 20 ∧
        (Part2.negativeOvershootAlmanac.Lookup 10).1 = 10) := by
  refine ⟨by decide, ?_, ?_, ?_⟩
  · intro r hr x hx
    simp only [Part2.negativeOvershootAlmanac, List.mem_cons, List.mem_singleton,
      List.not_mem_nil, or_false] at hr
    simp only [Part2.negativeOvershootAlmanac, Part2.Almanac.Lookup, lookupMaps,
      AlmanacMap.Lookup, AlmanacMap.lookupLoop, Entry.covers, Entry.translate, wrap64]
    rcases hr with rfl | rfl <;> simp only [Part2.SeedRange.contains] at hx <;>
      split <;> omega
  · simp [Part2.negativeOvershootAlmanac, Part2.Almanac.LowestLocationThreadedBatched,
      Part2.dispatchAll, Part2.dispatchLoop, Part2.SeedRange.End, Part2.Almanac.unitResult,
      Part2.arrivalOrder, Part2.aggregate, Part2.Almanac.LowestLocationByRange,
      Part2.Almanac.lowestLoop, Part2.Almanac.Lookup, lookupMaps, AlmanacMap.Lookup,
      AlmanacMap.lookupLoop, Entry.covers, Entry.translate, wrap64, keepLowest]
  · simp [Part2.negativeOvershootAlmanac, Part2.Almanac.Lookup, lookupMaps, AlmanacMap.Lookup,
      AlmanacMap.lookupLoop, Entry.covers, Entry.translate, wrap64]

/-- C19, amended: for a batch size `B >= 1` and seed ranges `(s, L)` with
`L >= 1` whose loop variable stays in the 64 bit range (`s`, `s + L` and
`s + ceil(L/B) * B` are representable), the dispatcher emits for each range
exactly the work units `SeedRange{s + k*B, min(B, L)}`, `k = 0 .. ceil(L/B)-1`,
and every seed of `[s, s+L)` lies in one of them.  When moreover the location
of every evaluated seed (those of `[s, s + ceil(L/B) * B)`) is non-negative,
the search with `n >= 1` workers returns, for every arrival order, a value
that is at most the location of every seed of every seed range, and that is
the location of a seed of a seed range when each `L` satisfies `L < B` or
`B` divides `L`. -/
theorem Almanac.batched_units_value (a : Part2.Almanac) (n batchSize : Int) (fuel : Nat)
    (arrival : List Int) (hn : 1 ≤ n) (hB : 1 ≤ batchSize)
    (hL : ∀ r ∈ a.SeedRanges, 1 ≤ r.Range)
    (hfit : ∀ r ∈ a.SeedRanges, r.fits batchSize)
    (hnn : ∀ r ∈ a.SeedRanges, ∀ x : Int, r.Start ≤ x →
      x < r.Start + (Part2.iterations batchSize r : Int) * batchSize → 0 ≤ (a.Lookup x).1)
    (hfuel : (a.SeedRanges.map (Part2.iterations batchSize)).sum < fuel)
    (horder : Part2.arrivalOrder n
      ((Part2.allUnits batchSize a.SeedRanges).map a.unitResult) arrival) :
    (∀ r ∈ a.SeedRanges,
        Part2.dispatchLoop batchSize r fuel r.Start = some (Part2.batchUnits batchSize r)) ∧
      Part2.dispatchAll batchSize fuel a.SeedRanges
        = some (Part2.allUnits batchSize a.SeedRanges) ∧
      (∀ r ∈ a.SeedRanges, ∀ x : Int, r.contains x →
        ∃ u ∈ Part2.batchUnits batchSize r, u.contains x) ∧
      ∃ v : Int, a.LowestLocationThreadedBatched n batchSize fuel arrival = some v ∧
        (∀ r ∈ a.SeedRanges, ∀ x : Int, r.contains x → v ≤ (a.Lookup x).1) ∧
        (a.SeedRanges ≠ [] →
          (∀ r ∈ a.SeedRanges, r.Range < batchSize ∨ batchSize ∣ r.Range) →
          ∃ r ∈ a.SeedRanges, ∃ x : Int, r.contains x ∧ v = (a.Lookup x).1) := by
  have hall := Part2.dispatchAll_eq batchSize hB a.SeedRanges hfit fuel hfuel
  have hunit : ∀ u ∈ Part2.allUnits batchSize a.SeedRanges,
      ∃ r ∈ a.SeedRanges, u ∈ Part2.batchUnits batchSize r ∧
        (∃ x, u.contains x ∧ a.unitResult u = (a.Lookup x).1) ∧
        (∀ x, u.contains x → a.unitResult u ≤ (a.Lookup x).1) ∧ 0 ≤ a.unitResult u := by
    intro u hu
    obtain ⟨r, hr, hur⟩ := (Part2.mem_allUnits batchSize u a.SeedRanges).mp hu
    exact ⟨r, hr, hur, Part2.Almanac.unitResult_spec a batchSize r u hB (hL r hr) (hfit r hr)
      (hnn r hr) hur⟩
  have hres : ∀ res ∈ (Part2.allUnits batchSize a.SeedRanges).map a.unitResult, 0 ≤ res := by
    intro res hmem
    obtain ⟨u, hu, rfl⟩ := List.mem_map.mp hmem
    obtain ⟨_, _, _, _, _, h0⟩ := hunit u hu
    exact h0
  have hval : a.LowestLocationThreadedBatched n batchSize fuel arrival
      = some (Part2.aggregate ((Part2.allUnits batchSize a.SeedRanges).map a.unitResult)) := by
    unfold Part2.Almanac.LowestLocationThreadedBatched
    rw [if_neg (by omega : ¬ n < 0), hall]
    simp only
    exact Part2.collect_eq (n = 0) (by omega) n _ arrival hres horder
  have hmin : ∀ u ∈ Part2.allUnits batchSize a.SeedRanges,
      Part2.aggregate ((Part2.allUnits batchSize a.SeedRanges).map a.unitResult)
        ≤ a.unitResult u := by
    intro u hu
    have hmem : a.unitResult u ∈ (Part2.allUnits batchSize a.SeedRanges).map a.unitResult :=
      List.mem_map.mpr ⟨u, hu, rfl⟩
    exact (foldl_keepLowest_sentinel _ (List.ne_nil_of_mem hmem) hres (-1) (by decide)).2 _ hmem
  refine ⟨fun r hr => Part2.dispatchLoop_batchUnits batchSize r hB (hfit r hr) fuel ?_, hall,
    fun r _ x hx => Part2.batchUnits_cover batchSize r hB x hx, _, hval, ?_, ?_⟩
  · have hle : Part2.iterations batchSize r
        ≤ (a.SeedRanges.map (Part2.iterations batchSize)).sum :=
      List.single_le_sum (fun _ _ => Nat.zero_le _) _ (List.mem_map.mpr ⟨r, hr, rfl⟩)
    omega
  · intro r hr x hx
    obtain ⟨u, hur, hux⟩ := Part2.batchUnits_cover batchSize r hB x hx
    have hu : u ∈ Part2.allUnits batchSize a.SeedRanges :=
      (Part2.mem_allUnits batchSize u a.SeedRanges).mpr ⟨r, hr, hur⟩
    obtain ⟨_, _, _, _, hle, _⟩ := hunit u hu
    exact le_trans (hmin u hu) (hle x hux)
  · intro hne hex
    obtain ⟨r0, hr0⟩ := List.exists_mem_of_ne_nil _ hne
    have hpos := Part2.iterations_pos batchSize r0 hB (hL r0 hr0)
    have hu0 : (⟨r0.Start + ((0 : Nat) : Int) * batchSize, min batchSize r0.Range⟩ :
        Part2.SeedRange) ∈ Part2.allUnits batchSize a.SeedRanges :=
      (Part2.mem_allUnits batchSize _ a.SeedRanges).mpr
        ⟨r0, hr0, (Part2.mem_batchUnits batchSize r0 _).mpr ⟨0, hpos, rfl⟩⟩
    have hne' : (Part2.allUnits batchSize a.SeedRanges).map a.unitResult ≠ [] :=
      List.ne_nil_of_mem (List.mem_map.mpr ⟨_, hu0, rfl⟩)
    have hmem := (foldl_keepLowest_sentinel _ hne' hres (-1) (by decide)).1
    obtain ⟨u, hu, heq⟩ := List.mem_map.mp hmem
    obtain ⟨r, hr, hur, ⟨x, hux, hx⟩, _, _⟩ := hunit u hu
    refine ⟨r, hr, x, Part2.batchUnits_exact batchSize r u hB (hex r hr) hur x hux, ?_⟩
    rw [← hx]
    exact heq.symm

/-- Witness of C19, amended: the two seed ranges of the sample with the
seed-to-soil map, two workers and the batch size 5, the results arriving in
dispatch order. -/
theorem Almanac.batched_units_value_witness :
    ∃ v : Int,
      Part2.sampleRangesAlmanac.LowestLocationThreadedBatched 2 5 7
          ((Part2.allUnits 5 Part2.sampleRangesAlmanac.SeedRanges).map
            Part2.sampleRangesAlmanac.unitResult) = some v ∧
        (∀ r ∈ Part2.sampleRangesAlmanac.SeedRanges, ∀ x : Int, r.contains x →
          v ≤ (Part2.sampleRangesAlmanac.Lookup x).1) :=
  have h := (Almanac.batched_units_value Part2.sampleRangesAlmanac 2 5 7
    ((Part2.allUnits 5 Part2.sampleRangesAlmanac.SeedRanges).map
      Part2.sampleRangesAlmanac.unitResult)
    (by decide) (by decide) (by decide) (by decide)
    (by
      intro r hr x hx _
      simp only [Part2.sampleRangesAlmanac, List.mem_cons, List.mem_singleton,
        List.not_mem_nil, or_false] at hr
      have hx' : 55 ≤ x := by rcases hr with rfl | rfl <;> simp only at hx <;> omega
      simp only [Part2.sampleRangesAlmanac, sampleSeedToSoil, Part2.Almanac.Lookup, lookupMaps,
        AlmanacMap.Lookup, AlmanacMap.lookupLoop, Entry.covers, Entry.translate, wrap64]
      split_ifs <;> omega)
    (by decide) ⟨List.Perm.refl _, fun _ => rfl⟩).2.2.2
  Exists.elim h (fun v hv => ⟨v, hv.1, hv.2.1⟩)

/-! ## Splitting text -/

theorem Split_of_not_mem (sep : Char) :
    ∀ l : List Char, sep ∉ l → Split l sep = [l] := by
  intro l
  induction l with
  | nil => intro _; rfl
  | cons c cs ih =>
    intro h
    have hc : c ≠ sep := fun hc => h (by rw [hc]; exact List.mem_cons_self _ _)
    have hcs : sep ∉ cs := fun hcs => h (List.mem_cons_of_mem _ hcs)
    simp only [Split, if_neg hc, ih hcs]

theorem Split_append (sep : Char) (rest : List Char) :
    ∀ l : List Char, sep ∉ l → Split (l ++ sep :: rest) sep = l :: Split rest sep := by
  intro l
  induction l with
  | nil => intro _; simp only [List.nil_append, Split, if_pos]
  | cons c cs ih =>
    intro h
    have hc : c ≠ sep := fun hc => h (by rw [hc]; exact List.mem_cons_self _ _)
    have hcs : sep ∉ cs := fun hcs => h (List.mem_cons_of_mem _ hcs)
    show Split (c :: (cs ++ sep :: rest)) sep = _
    simp only [Split, if_neg hc, ih hcs]

theorem Split_joinWith (sep : Char) :
    ∀ pieces : List (List Char), pieces ≠ [] → (∀ p ∈ pieces, sep ∉ p) →
      Split (joinWith sep pieces) sep = pieces := by
  intro pieces
  induction pieces with
  | nil => intro h _; exact absurd rfl h
  | cons p ps ih =>
    intro _ hmem
    cases ps with
    | nil => exact Split_of_not_mem sep p (hmem p (List.mem_cons_self _ _))
    | cons q rest =>
      simp only [joinWith]
      rw [Split_append sep _ p (hmem p (List.mem_cons_self _ _)),
        ih (List.cons_ne_nil q rest) (fun x hx => hmem x (List.mem_cons_of_mem _ hx))]

theorem Split_unlines :
    ∀ lines : List (List Char), (∀ l ∈ lines, '\n' ∉ l) →
      Split (unlines lines) '\n' = lines ++ [[]] := by
  intro lines
  induction lines with
  | nil => intro _; rfl
  | cons l rest ih =>
    intro h
    simp only [unlines]
    rw [Split_append '\n' _ l (h l (List.mem_cons_self _ _)),
      ih (fun x hx => h x (List.mem_cons_of_mem _ hx))]
    rfl

theorem rawLines_unlines (lines : List (List Char)) (h : ∀ l ∈ lines, '\n' ∉ l) :
    rawLines (unlines lines) = lines := by
  unfold rawLines
  simp [Split_unlines lines h]

theorem dropCR_of_not_mem (line : List Char) (h : '\r' ∉ line) : dropCR line = line := by
  unfold dropCR
  have hne : line.getLast? ≠ some '\r' := fun hl => h (List.mem_of_getLast?_eq_some hl)
  rw [if_neg hne]

theorem ScanLines_unlines (lines : List (List Char)) (h : ∀ l ∈ lines, '\n' ∉ l ∧ '\r' ∉ l) :
    ScanLines (unlines lines) = lines := by
  unfold ScanLines
  rw [rawLines_unlines lines (fun l hl => (h l hl).1)]
  conv_rhs => rw [← List.map_id lines]
  exact List.map_congr_left (fun l hl => dropCR_of_not_mem l (h l hl).2)

/-! ## Numerals -/

theorem isDigit_iff (c : Char) : isDigit c = true ↔ 48 ≤ c.toNat ∧ c.toNat ≤ 57 := by
  unfold isDigit
  exact decide_eq_true_iff

theorem isSpace_of_isDigit {c : Char} (h : isDigit c = true) : isSpace c = false := by
  have hd := (isDigit_iff c).mp h
  unfold isSpace
  simp only [decide_eq_false_iff_not]
  omega

theorem ne_minus_of_isDigit {c : Char} (h : isDigit c = true) : c ≠ '-' := by
  intro hc
  rw [hc] at h
  exact absurd h (by decide)

theorem ne_plus_of_isDigit {c : Char} (h : isDigit c = true) : c ≠ '+' := by
  intro hc
  rw [hc] at h
  exact absurd h (by decide)

theorem ne_of_not_isSpace {c d : Char} (h : isSpace c = false) (hd : isSpace d = true) :
    c ≠ d := by
  intro hc
  rw [hc, hd] at h
  exact absurd h (by decide)

theorem digitsValue_digits :
    ∀ (cs : List Char) (n m : Nat), digitsValue cs n = some m → ∀ c ∈ cs, isDigit c = true := by
  intro cs
  induction cs with
  | nil => intro _ _ _ c hc; cases hc
  | cons d ds ih =>
    intro n m h c hc
    by_cases hd : isDigit d = true
    · simp only [digitsValue, if_pos hd] at h
      rcases List.mem_cons.mp hc with rfl | hmem
      · exact hd
      · exact ih _ _ h c hmem
    · simp only [digitsValue, if_neg hd] at h
      cases h

theorem Atoi_shape (text : List Char) (v : Int) (h : Atoi text = some v) :
    ∃ sign digits, text = sign ++ digits ∧ (sign = [] ∨ sign = ['-'] ∨ sign = ['+']) ∧
      digits ≠ [] ∧ ∀ d ∈ digits, isDigit d = true := by
  cases text with
  | nil => simp only [Atoi] at h; cases h
  | cons c cs =>
    by_cases hm : c = '-'
    · subst hm
      by_cases hcs : cs = []
      · simp only [Atoi, if_pos, hcs] at h
        cases h
      · simp only [Atoi, if_pos, if_neg hcs] at h
        cases hv : digitsValue cs 0 with
        | none => rw [hv] at h; cases h
        | some n => exact ⟨['-'], cs, rfl, Or.inr (Or.inl rfl), hcs, digitsValue_digits cs 0 n hv⟩
    · by_cases hp : c = '+'
      · subst hp
        by_cases hcs : cs = []
        · simp only [Atoi, if_neg hm, if_pos, hcs] at h
          cases h
        · simp only [Atoi, if_neg hm, if_pos, if_neg hcs] at h
          cases hv : digitsValue cs 0 with
          | none => rw [hv] at h; cases h
          | some n =>
            exact ⟨['+'], cs, rfl, Or.inr (Or.inr rfl), hcs, digitsValue_digits cs 0 n hv⟩
      · simp only [Atoi, if_neg hm, if_neg hp] at h
        cases hv : digitsValue (c :: cs) 0 with
        | none => rw [hv] at h; cases h
        | some n =>
          exact ⟨[], c :: cs, rfl, Or.inl rfl, List.cons_ne_nil c cs,
            digitsValue_digits (c :: cs) 0 n hv⟩

theorem Atoi_chars (text : List Char) (v : Int) (h : Atoi text = some v) :
    text ≠ [] ∧ (∀ c ∈ text, isSpace c = false) ∧ (∀ c ∈ text.head?, isSpace c = false) := by
  obtain ⟨sign, digits, rfl, hsign, hne, hdig⟩ := Atoi_shape text v h
  have hall : ∀ c ∈ sign ++ digits, isSpace c = false := by
    intro c hc
    rcases List.mem_append.mp hc with hs | hd
    · rcases hsign with rfl | rfl | rfl
      · cases hs
      · rw [List.mem_singleton.mp hs]; decide
      · rw [List.mem_singleton.mp hs]; decide
    · exact isSpace_of_isDigit (hdig c hd)
  refine ⟨by simp [hne], hall, ?_⟩
  intro c hc
  exact hall c (List.mem_of_mem_head? hc)

theorem takeWhile_dropWhile_digits :
    ∀ (digits rest : List Char), (∀ d ∈ digits, isDigit d = true) →
      (∀ c ∈ rest.head?, isDigit c = false) →
      (digits ++ rest).takeWhile isDigit = digits ∧
        (digits ++ rest).dropWhile isDigit = rest := by
  intro digits
  induction digits with
  | nil =>
    intro rest _ hrest
    cases rest with
    | nil => exact ⟨rfl, rfl⟩
    | cons c cs =>
      have hc : isDigit c = false := hrest c (by simp)
      simp [List.takeWhile, List.dropWhile, hc]
  | cons d ds ih =>
    intro rest hdig hrest
    have hd : isDigit d = true := hdig d (List.mem_cons_self _ _)
    obtain ⟨h1, h2⟩ := ih rest (fun x hx => hdig x (List.mem_cons_of_mem _ hx)) hrest
    show (d :: (ds ++ rest)).takeWhile isDigit = d :: ds ∧
      (d :: (ds ++ rest)).dropWhile isDigit = rest
    simp only [List.takeWhile, List.dropWhile, hd, h1, h2, and_self]

theorem scanInt_numeral (text rest : List Char) (v : Int) (h : Atoi text = some v)
    (hrest : ∀ c ∈ rest.head?, isDigit c = false) :
    scanInt (text ++ rest) = some (v, rest) := by
  obtain ⟨sign, digits, rfl, hsign, hne, hdig⟩ := Atoi_shape text v h
  obtain ⟨htake, hdrop⟩ := takeWhile_dropWhile_digits digits rest hdig hrest
  rcases hsign with rfl | rfl | rfl
  · obtain ⟨d, ds, rfl⟩ := List.exists_cons_of_ne_nil hne
    have hd : isDigit d = true := hdig d (List.mem_cons_self _ _)
    have hsp : isSpace d = false := isSpace_of_isDigit hd
    have hnot : ¬ (d = '+' ∨ d = '-') := by
      rintro (hp | hm)
      · exact ne_plus_of_isDigit hd hp
      · exact ne_minus_of_isDigit hd hm
    simp only [List.nil_append, List.cons_append] at htake hdrop h ⊢
    simp only [scanInt, List.dropWhile, hsp, if_neg hnot, htake, hdrop, List.nil_append, h,
      if_neg (List.cons_ne_nil d ds)]
  · have hsp : isSpace '-' = false := by decide
    simp only [List.singleton_append, List.cons_append, List.nil_append] at h ⊢
    simp only [scanInt, List.dropWhile, hsp, or_true, if_true, htake, hdrop,
      List.singleton_append, h, if_neg hne]
  · have hsp : isSpace '+' = false := by decide
    simp only [List.singleton_append, List.cons_append, List.nil_append] at h ⊢
    simp only [scanInt, List.dropWhile, hsp, true_or, if_true, htake, hdrop,
      List.singleton_append, h, if_neg hne]

theorem dropWhile_isSpace_of_head (l : List Char) (h : ∀ c ∈ l.head?, isSpace c = false) :
    l.dropWhile isSpace = l := by
  cases l with
  | nil => rfl
  | cons c cs =>
    have hc : isSpace c = false := h c (by simp)
    simp only [List.dropWhile, hc]

theorem scanSpace_numeral (text rest : List Char) (v : Int) (h : Atoi text = some v) :
    scanSpace (' ' :: (text ++ rest)) = some (text ++ rest) := by
  obtain ⟨hne, _, hhead⟩ := Atoi_chars text v h
  obtain ⟨c, cs, rfl⟩ := List.exists_cons_of_ne_nil hne
  have hsp : isSpace ' ' = true := by decide
  have hc : isSpace c = false := hhead c (by simp)
  show scanSpace (' ' :: c :: (cs ++ rest)) = some (c :: (cs ++ rest))
  simp only [scanSpace, hsp, if_true, List.dropWhile, hc]

theorem FscanfEntry_entryLine (e : Numeral × Numeral × Numeral)
    (h : e.1.valid ∧ e.2.1.valid ∧ e.2.2.valid) :
    FscanfEntry (entryLine e)
        = some { Destination := e.1.value, Source := e.2.1.value, SourceRange := e.2.2.value } ∧
      (entryLine e).length > 0 := by
  obtain ⟨h1, h2, h3⟩ := h
  have hsp : ∀ rest : List Char, ∀ c ∈ (' ' :: rest).head?, isDigit c = false := by
    intro rest c hc
    simp only [List.head?_cons, Option.mem_def, Option.some.injEq] at hc
    rw [← hc]
    decide
  have hnil : ∀ c ∈ ([] : List Char).head?, isDigit c = false := by
    intro c hc
    simp at hc
  have s1 := scanInt_numeral e.1.text (' ' :: (e.2.1.text ++ ' ' :: e.2.2.text)) e.1.value h1
    (hsp _)
  have s2 := scanSpace_numeral e.2.1.text (' ' :: e.2.2.text) e.2.1.value h2
  have s3 := scanInt_numeral e.2.1.text (' ' :: e.2.2.text) e.2.1.value h2 (hsp _)
  have s4 := scanSpace_numeral e.2.2.text [] e.2.2.value h3
  have s5 := scanInt_numeral e.2.2.text [] e.2.2.value h3 hnil
  simp only [List.append_nil] at s4 s5
  refine ⟨?_, ?_⟩
  · simp only [FscanfEntry, entryLine, s1, s2, s3, s4, s5]
  · have hne := (Atoi_chars e.1.text e.1.value h1).1
    obtain ⟨c, cs, hc⟩ := List.exists_cons_of_ne_nil hne
    simp [entryLine, hc]

theorem Part2.seedLoop_seedFields :
    ∀ (seeds : List (Numeral × Numeral)), (∀ p ∈ seeds, p.1.valid ∧ p.2.valid) →
      ∀ seedRanges : List Part2.SeedRange,
        Part2.seedLoop (seedFields seeds) seedRanges = some (seedRanges ++ seedValues seeds) := by
  intro seeds
  induction seeds with
  | nil => intro _ seedRanges; simp [seedFields, Part2.seedLoop, seedValues]
  | cons p ps ih =>
    intro h seedRanges
    obtain ⟨h1, h2⟩ := h p (List.mem_cons_self _ _)
    unfold Numeral.valid at h1 h2
    simp only [seedFields, Part2.seedLoop, h1, h2,
      ih (fun x hx => h x (List.mem_cons_of_mem _ hx)), seedValues, List.map_cons,
      List.append_assoc, List.singleton_append]

theorem isPrefixOf_false_of_mem :
    ∀ (p i : List Char) (c : Char) (rest : List Char), c ∉ p → (∃ x ∈ p, x ∉ i) →
      List.isPrefixOf p (i ++ c :: rest) = false := by
  intro p
  induction p with
  | nil => intro i c rest _ h; obtain ⟨x, hx, _⟩ := h; cases hx
  | cons a p ih =>
    intro i c rest hc hx
    have hac : a ≠ c := fun h => hc (by rw [h]; exact List.mem_cons_self _ _)
    cases i with
    | nil =>
      simp only [List.nil_append, List.isPrefixOf, Bool.and_eq_false_imp, beq_iff_eq]
      intro h
      exact absurd h hac
    | cons b i =>
      show List.isPrefixOf (a :: p) (b :: (i ++ c :: rest)) = false
      simp only [List.isPrefixOf, Bool.and_eq_false_imp, beq_iff_eq]
      intro hab
      refine ih i c rest (fun h => hc (List.mem_cons_of_mem _ h)) ?_
      obtain ⟨x, hxp, hxi⟩ := hx
      rcases List.mem_cons.mp hxp with rfl | hmem
      · exact absurd (by rw [hab]; exact List.mem_cons_self _ _) hxi
      · exact ⟨x, hmem, fun h => hxi (List.mem_cons_of_mem _ h)⟩

theorem seedsLine_spec (seeds : List (Numeral × Numeral)) (hne : seeds ≠ [])
    (h : ∀ p ∈ seeds, p.1.valid ∧ p.2.valid) :
    HasPrefix (seedsLine seeds) "seeds: ".toList = true ∧
      Split (TrimPrefix (seedsLine seeds) "seeds: ".toList) ' ' = seedFields seeds := by
  have hpre : HasPrefix (seedsLine seeds) "seeds: ".toList = true := by
    unfold HasPrefix seedsLine
    exact List.isPrefixOf_iff_prefix.mpr (List.prefix_append _ _)
  refine ⟨hpre, ?_⟩
  have htrim : TrimPrefix (seedsLine seeds) "seeds: ".toList = joinWith ' ' (seedFields seeds) := by
    unfold TrimPrefix
    rw [if_pos hpre]
    unfold seedsLine
    exact List.drop_left _ _
  rw [htrim]
  refine Split_joinWith ' ' (seedFields seeds) ?_ ?_
  · obtain ⟨p, ps, rfl⟩ := List.exists_cons_of_ne_nil hne
    simp [seedFields]
  · have hfield : ∀ (ps : List (Numeral × Numeral)), (∀ p ∈ ps, p.1.valid ∧ p.2.valid) →
        ∀ f ∈ seedFields ps, ' ' ∉ f := by
      intro ps
      induction ps with
      | nil => intro _ f hf; cases hf
      | cons p ps ih =>
        intro hv f hf
        obtain ⟨h1, h2⟩ := hv p (List.mem_cons_self _ _)
        simp only [seedFields, List.mem_cons] at hf
        rcases hf with rfl | rfl | hf
        · intro hmem
          exact absurd ((Atoi_chars _ _ h1).2.1 ' ' hmem) (by decide)
        · intro hmem
          exact absurd ((Atoi_chars _ _ h2).2.1 ' ' hmem) (by decide)
        · exact ih (fun x hx => hv x (List.mem_cons_of_mem _ hx)) f hf
    exact hfield seeds h

theorem headerLine_spec (b : BlockText) (hin : isName b.input) (hout : isName b.output) :
    HasPrefix (headerLine b) "seeds: ".toList = false ∧
      HasSuffix (headerLine b) " map:".toList = true ∧
      Split (TrimSuffix (headerLine b) " map:".toList) '-'
        = [b.input, "to".toList, b.output] := by
  have hsuf : HasSuffix (headerLine b) " map:".toList = true := by
    unfold HasSuffix headerLine
    exact List.isSuffixOf_iff_suffix.mpr (List.suffix_append _ _)
  refine ⟨?_, hsuf, ?_⟩
  · unfold HasPrefix headerLine
    have hshape : b.input ++ "-to-".toList ++ b.output ++ " map:".toList
        = b.input ++ '-' :: ("to-".toList ++ b.output ++ " map:".toList) := by
      simp only [List.append_assoc]
      rfl
    rw [hshape]
    refine isPrefixOf_false_of_mem _ _ _ _ (by decide) ⟨' ', by decide, fun hmem => ?_⟩
    exact absurd (hin ' ' hmem).2 (by decide)
  · have htrim : TrimSuffix (headerLine b) " map:".toList
        = b.input ++ "-to-".toList ++ b.output := by
      unfold TrimSuffix
      rw [if_pos hsuf]
      unfold headerLine
      rw [List.length_append, Nat.add_sub_cancel]
      exact List.take_left _ _
    rw [htrim]
    have hshape : b.input ++ "-to-".toList ++ b.output
        = b.input ++ '-' :: ("to".toList ++ '-' :: b.output) := by
      simp only [List.append_assoc]
      rfl
    have hi : '-' ∉ b.input := fun hmem => (hin '-' hmem).1 rfl
    have ho : '-' ∉ b.output := fun hmem => (hout '-' hmem).1 rfl
    rw [hshape, Split_append '-' _ b.input hi, Split_append '-' _ "to".toList (by decide),
      Split_of_not_mem '-' b.output ho]

theorem Part2.loadLoop_blank (rest : List (List Char)) (almanac : Part2.Almanac) :
    Part2.loadLoop ([] :: rest) almanac = Part2.loadLoop rest almanac := by
  have h1 : HasPrefix [] "seeds: ".toList = false := by decide
  have h2 : HasSuffix [] " map:".toList = false := by decide
  rw [Part2.loadLoop]
  simp only [h1, h2, Bool.false_eq_true, if_false]

theorem Part2.blockLoop_entries :
    ∀ (entries : List (Numeral × Numeral × Numeral)),
      (∀ e ∈ entries, e.1.valid ∧ e.2.1.valid ∧ e.2.2.valid) →
      ∀ (rest : List (List Char)) (aMap : AlmanacMap) (almanac : Part2.Almanac),
        Part2.blockLoop (entries.map entryLine ++ rest) aMap almanac
          = Part2.blockLoop rest
              { aMap with Entries := aMap.Entries ++ entries.map (fun e =>
                  { Destination := e.1.value, Source := e.2.1.value,
                    SourceRange := e.2.2.value }) } almanac := by
  intro entries
  induction entries with
  | nil => intro _ rest aMap almanac; simp
  | cons e es ih =>
    intro h rest aMap almanac
    obtain ⟨hscan, hlen⟩ := FscanfEntry_entryLine e (h e (List.mem_cons_self _ _))
    show Part2.blockLoop (entryLine e :: (es.map entryLine ++ rest)) aMap almanac = _
    rw [Part2.blockLoop]
    simp only [hlen, if_true, hscan]
    rw [ih (fun x hx => h x (List.mem_cons_of_mem _ hx))]
    simp only [List.map_cons, List.append_assoc, List.singleton_append]

theorem Part2.blockLoop_blocksLines (bs : List BlockText) (aMap : AlmanacMap)
    (almanac : Part2.Almanac) :
    Part2.blockLoop (blocksLines bs) aMap almanac
      = Part2.loadLoop (blocksLines bs) { almanac with Maps := almanac.Maps ++ [aMap] } := by
  cases bs with
  | nil => simp only [blocksLines, Part2.blockLoop, Part2.loadLoop]
  | cons b bs =>
    simp only [blocksLines]
    rw [Part2.loadLoop_blank, Part2.blockLoop]
    simp only [List.length_nil, gt_iff_lt, lt_self_iff_false, if_false]

theorem Part2.loadLoop_blocksLines :
    ∀ (blocks : List BlockText),
      (∀ b ∈ blocks, isName b.input ∧ isName b.output ∧
        ∀ e ∈ b.entries, e.1.valid ∧ e.2.1.valid ∧ e.2.2.valid) →
      ∀ almanac : Part2.Almanac,
        Part2.loadLoop (blocksLines blocks) almanac
          = some { almanac with Maps := almanac.Maps ++ blocks.map BlockText.toMap } := by
  intro blocks
  induction blocks with
  | nil => intro _ almanac; simp [blocksLines, Part2.loadLoop]
  | cons b bs ih =>
    intro h almanac
    obtain ⟨hin, hout, hentries⟩ := h b (List.mem_cons_self _ _)
    obtain ⟨hpre, hsuf, hsplit⟩ := headerLine_spec b hin hout
    simp only [blocksLines]
    rw [Part2.loadLoop_blank, Part2.loadLoop]
    simp only [hpre, Bool.false_eq_true, if_false, hsuf, if_true, hsplit, List.getElem?_cons_zero,
      List.getElem?_cons_succ]
    rw [Part2.blockLoop_entries b.entries hentries, Part2.blockLoop_blocksLines,
      ih (fun x hx => h x (List.mem_cons_of_mem _ hx))]
    simp only [List.nil_append, List.map_cons, List.append_assoc, List.singleton_append,
      BlockText.toMap]

theorem Part2.loadLoop_almanacLines (seeds : List (Numeral × Numeral))
    (blocks : List BlockText) (hwf : wellFormed seeds blocks) :
    Part2.loadLoop (almanacLines seeds blocks) { SeedRanges := [], Maps := [], Log := ⟨[]⟩ }
      = some { SeedRanges := seedValues seeds, Maps := blocks.map BlockText.toMap,
               Log := ⟨[]⟩ } := by
  obtain ⟨hne, hseeds, hblocks, _⟩ := hwf
  obtain ⟨hpre, hsplit⟩ := seedsLine_spec seeds hne hseeds
  unfold almanacLines
  rw [Part2.loadLoop]
  simp only [hpre, if_true, hsplit, Part2.seedLoop_seedFields seeds hseeds, List.nil_append]
  rw [Part2.loadLoop_blocksLines blocks hblocks]
  simp only [List.nil_append]

/-! ## Lines of a well-formed input -/

theorem mem_joinWith (sep c : Char) :
    ∀ pieces : List (List Char), c ∈ joinWith sep pieces → c = sep ∨ ∃ p ∈ pieces, c ∈ p := by
  intro pieces
  induction pieces with
  | nil => intro h; cases h
  | cons p ps ih =>
    intro h
    cases ps with
    | nil => exact Or.inr ⟨p, List.mem_cons_self _ _, h⟩
    | cons q rest =>
      simp only [joinWith, List.mem_append, List.mem_cons] at h
      rcases h with h | h | h
      · exact Or.inr ⟨p, List.mem_cons_self _ _, h⟩
      · exact Or.inl h
      · rcases ih h with h | ⟨x, hx, hc⟩
        · exact Or.inl h
        · exact Or.inr ⟨x, List.mem_cons_of_mem _ hx, hc⟩

theorem mem_seedFields (f : List Char) :
    ∀ seeds : List (Numeral × Numeral), f ∈ seedFields seeds →
      ∃ p ∈ seeds, f = p.1.text ∨ f = p.2.text := by
  intro seeds
  induction seeds with
  | nil => intro h; cases h
  | cons p ps ih =>
    intro h
    simp only [seedFields, List.mem_cons] at h
    rcases h with h | h | h
    · exact ⟨p, List.mem_cons_self _ _, Or.inl h⟩
    · exact ⟨p, List.mem_cons_self _ _, Or.inr h⟩
    · obtain ⟨x, hx, hf⟩ := ih h
      exact ⟨x, List.mem_cons_of_mem _ hx, hf⟩

theorem not_break_of_not_isSpace {c : Char} (h : isSpace c = false) : c ≠ '\n' ∧ c ≠ '\r' :=
  ⟨ne_of_not_isSpace h (by decide), ne_of_not_isSpace h (by decide)⟩

theorem seedsLine_no_break (seeds : List (Numeral × Numeral))
    (h : ∀ p ∈ seeds, p.1.valid ∧ p.2.valid) :
    ∀ c ∈ seedsLine seeds, c ≠ '\n' ∧ c ≠ '\r' := by
  intro c hc
  unfold seedsLine at hc
  rcases List.mem_append.mp hc with hc | hc
  · have hall : ∀ x ∈ "seeds: ".toList, x ≠ '\n' ∧ x ≠ '\r' := by decide
    exact hall c hc
  · rcases mem_joinWith ' ' c _ hc with rfl | ⟨f, hf, hcf⟩
    · decide
    · obtain ⟨p, hp, hfp⟩ := mem_seedFields f seeds hf
      obtain ⟨h1, h2⟩ := h p hp
      rcases hfp with rfl | rfl
      · exact not_break_of_not_isSpace ((Atoi_chars _ _ h1).2.1 c hcf)
      · exact not_break_of_not_isSpace ((Atoi_chars _ _ h2).2.1 c hcf)

theorem headerLine_no_break (b : BlockText) (hin : isName b.input) (hout : isName b.output) :
    ∀ c ∈ headerLine b, c ≠ '\n' ∧ c ≠ '\r' := by
  intro c hc
  unfold headerLine at hc
  have h1 : ∀ x ∈ "-to-".toList, x ≠ '\n' ∧ x ≠ '\r' := by decide
  have h2 : ∀ x ∈ " map:".toList, x ≠ '\n' ∧ x ≠ '\r' := by decide
  simp only [List.mem_append] at hc
  rcases hc with ((hc | hc) | hc) | hc
  · exact not_break_of_not_isSpace (hin c hc).2
  · exact h1 c hc
  · exact not_break_of_not_isSpace (hout c hc).2
  · exact h2 c hc

theorem entryLine_no_break (e : Numeral × Numeral × Numeral)
    (h : e.1.valid ∧ e.2.1.valid ∧ e.2.2.valid) :
    ∀ c ∈ entryLine e, c ≠ '\n' ∧ c ≠ '\r' := by
  intro c hc
  obtain ⟨h1, h2, h3⟩ := h
  unfold entryLine at hc
  simp only [List.mem_append, List.mem_cons] at hc
  rcases hc with hc | rfl | hc | rfl | hc
  · exact not_break_of_not_isSpace ((Atoi_chars _ _ h1).2.1 c hc)
  · decide
  · exact not_break_of_not_isSpace ((Atoi_chars _ _ h2).2.1 c hc)
  · decide
  · exact not_break_of_not_isSpace ((Atoi_chars _ _ h3).2.1 c hc)

theorem blocksLines_no_break :
    ∀ (blocks : List BlockText),
      (∀ b ∈ blocks, isName b.input ∧ isName b.output ∧
        ∀ e ∈ b.entries, e.1.valid ∧ e.2.1.valid ∧ e.2.2.valid) →
      ∀ l ∈ blocksLines blocks, ∀ c ∈ l, c ≠ '\n' ∧ c ≠ '\r' := by
  intro blocks
  induction blocks with
  | nil => intro _ l hl; cases hl
  | cons b bs ih =>
    intro h l hl c hc
    obtain ⟨hin, hout, hentries⟩ := h b (List.mem_cons_self _ _)
    simp only [blocksLines, List.mem_cons, List.mem_append, List.mem_map] at hl
    rcases hl with rfl | rfl | ⟨e, he, rfl⟩ | hl
    · cases hc
    · exact headerLine_no_break b hin hout c hc
    · exact entryLine_no_break e (hentries e he) c hc
    · exact ih (fun x hx => h x (List.mem_cons_of_mem _ hx)) l hl c hc

theorem almanacLines_no_break (seeds : List (Numeral × Numeral)) (blocks : List BlockText)
    (hwf : wellFormed seeds blocks) :
    ∀ l ∈ almanacLines seeds blocks, '\n' ∉ l ∧ '\r' ∉ l := by
  obtain ⟨_, hseeds, hblocks, _⟩ := hwf
  have hall : ∀ l ∈ almanacLines seeds blocks, ∀ c ∈ l, c ≠ '\n' ∧ c ≠ '\r' := by
    intro l hl
    unfold almanacLines at hl
    rcases List.mem_cons.mp hl with rfl | hl
    · exact seedsLine_no_break seeds hseeds
    · exact blocksLines_no_break blocks hblocks l hl
  intro l hl
  exact ⟨fun hmem => (hall l hl _ hmem).1 rfl, fun hmem => (hall l hl _ hmem).2 rfl⟩

theorem Part2.LoadAlmanac_of_lines (input : List Char) (lines : List (List Char))
    (almanac : Part2.Almanac) (hraw : rawLines input = lines)
    (hbreak : ∀ l ∈ lines, '\r' ∉ l)
    (hload : Part2.loadLoop lines { SeedRanges := [], Maps := [], Log := ⟨[]⟩ } = some almanac)
    (hlen : ∀ l ∈ lines, lineTooLong l = false) :
    Part2.LoadAlmanac input = some almanac := by
  have hscan : ScanLines input = lines := by
    unfold ScanLines
    rw [hraw]
    conv_rhs => rw [← List.map_id lines]
    exact List.map_congr_left (fun l hl => dropCR_of_not_mem l (hbreak l hl))
  have hany : (rawLines input).any lineTooLong = false := by
    rw [hraw, List.any_eq_false]
    intro l hl
    rw [hlen l hl]
    decide
  unfold Part2.LoadAlmanac
  rw [hscan, hload]
  simp only [hany, Bool.false_eq_true, if_false]

theorem getLast?_blocksLines :
    ∀ (blocks : List BlockText),
      (∀ b ∈ blocks, ∀ e ∈ b.entries, e.1.valid ∧ e.2.1.valid ∧ e.2.2.valid) →
      ∀ first : List Char, first ≠ [] → (first :: blocksLines blocks).getLast? ≠ some [] := by
  intro blocks
  induction blocks with
  | nil =>
    intro _ first hfirst h
    simp only [blocksLines, List.getLast?_singleton, Option.some.injEq] at h
    exact hfirst h
  | cons b bs ih =>
    intro hvalid first _
    have hheader : headerLine b ≠ [] := by
      unfold headerLine
      intro h
      have hlen := congrArg List.length h
      simp only [List.length_append, List.length_nil] at hlen
      have h5 : " map:".toList.length = 5 := by decide
      omega
    have hrest := ih (fun x hx => hvalid x (List.mem_cons_of_mem _ hx))
    have hrec : ∀ entries : List (Numeral × Numeral × Numeral),
        (∀ e ∈ entries, e.1.valid ∧ e.2.1.valid ∧ e.2.2.valid) →
        ∀ first : List Char, first ≠ [] →
          (first :: (entries.map entryLine ++ blocksLines bs)).getLast? ≠ some [] := by
      intro entries
      induction entries with
      | nil => intro _ first hfirst; exact hrest first hfirst
      | cons e es ihe =>
        intro hval first _
        have hne : entryLine e ≠ [] := by
          have hlen := (FscanfEntry_entryLine e (hval e (List.mem_cons_self _ _))).2
          intro h
          rw [h] at hlen
          exact absurd hlen (by decide)
        have hstep := ihe (fun x hx => hval x (List.mem_cons_of_mem _ hx)) (entryLine e) hne
        simpa only [List.map_cons, List.cons_append, List.getLast?_cons_cons] using hstep
    have hfinal := hrec b.entries (hvalid b (List.mem_cons_self _ _)) (headerLine b) hheader
    simpa only [blocksLines, List.getLast?_cons_cons] using hfinal

theorem rawLines_joinWith (lines : List (List Char)) (hne : lines ≠ [])
    (h : ∀ l ∈ lines, '\n' ∉ l) (hlast : lines.getLast? ≠ some []) :
    rawLines (joinWith '\n' lines) = lines := by
  unfold rawLines
  simp only [Split_joinWith '\n' lines hne h, if_neg hlast]

theorem Part2.LoadAlmanac_tooLong (input : List Char)
    (h : (rawLines input).any lineTooLong = true) : Part2.LoadAlmanac input = none := by
  unfold Part2.LoadAlmanac
  cases Part2.loadLoop (ScanLines input) { SeedRanges := [], Maps := [], Log := ⟨[]⟩ } with
  | none => rfl
  | some almanac => simp only [h, if_true]

/-! ## Claims on `LoadAlmanac` -/

/-- C15 fails as stated.  The seeds line `seeds: 9223372036854775808 1` holds
two integers, but the first is not an `int`: `strconv.Atoi` fails and
`LoadAlmanac` panics.  And an input that is well formed but for an input name
of 70000 letters has a header line too long for the scanner:
`scanner.Err()` is not nil and `LoadAlmanac` panics. -/
theorem LoadAlmanac_wellFormed_counterexample :
    Part2.LoadAlmanac "seeds: 9223372036854775808 1".toList = none ∧
      (isName (List.replicate 70000 'a') ∧ Part2.LoadAlmanac longNameInput = none) := by
  refine ⟨by decide, ?_, ?_⟩
  · intro c hc
    rw [List.eq_of_mem_replicate hc]
    decide
  · have hlines : ∀ l ∈ almanacLines [(⟨"79".toList, 79⟩, ⟨"14".toList, 14⟩)]
        [⟨List.replicate 70000 'a', "soil".toList, []⟩], '\n' ∉ l := by
      intro l hl
      simp only [almanacLines, blocksLines, List.map_nil, List.nil_append, List.mem_cons,
        List.mem_singleton, List.not_mem_nil, or_false] at hl
      rcases hl with rfl | rfl | rfl
      · decide
      · decide
      · simp only [headerLine, List.mem_append, List.mem_replicate, not_or]
        refine ⟨⟨⟨fun h => absurd h.2 (by decide), by decide⟩, by decide⟩, by decide⟩
    have hlong : (rawLines longNameInput).any lineTooLong = true := by
      unfold longNameInput
      rw [rawLines_unlines _ hlines]
      simp only [almanacLines, blocksLines, List.map_nil, List.nil_append, List.any_cons,
        Bool.or_eq_true]
      right; right; left
      simp only [lineTooLong, headerLine, List.map_append, List.map_replicate, List.sum_append,
        List.sum_replicate, decide_eq_true_eq]
      have h1 : Char.utf8Size 'a' = 1 := by decide
      rw [h1]
      simp only [smul_eq_mul, mul_one]
      omega
    exact Part2.LoadAlmanac_tooLong longNameInput hlong

/-- C15, amended: for an input made of a line `seeds: a1 l1 ... ak lk`
(`k >= 1`, the integers separated by single spaces) followed by blocks, each
preceded by a blank line and made of a header `<in>-to-<out> map:` and lines
`<dest> <source> <length>`, where every integer is one that `strconv.Atoi`
reads (decimal, in the 64 bit range), the names hold no `-` and no white
space, and no line has 65536 bytes or more, `LoadAlmanac` returns the almanac
with `SeedRanges = [(a1,l1), ..., (ak,lk)]` and one map per header in textual
order, with the names of the header and the entries of the block in order.
The last line may or may not end with a line feed: the last block ends at the
end of the input. -/
theorem LoadAlmanac_wellFormed (seeds : List (Numeral × Numeral)) (blocks : List BlockText)
    (hwf : wellFormed seeds blocks) :
    Part2.LoadAlmanac (unlines (almanacLines seeds blocks))
        = some { SeedRanges := seedValues seeds, Maps := blocks.map BlockText.toMap,
                 Log := ⟨[]⟩ } ∧
      Part2.LoadAlmanac (joinWith '\n' (almanacLines seeds blocks))
        = some { SeedRanges := seedValues seeds, Maps := blocks.map BlockText.toMap,
                 Log := ⟨[]⟩ } := by
  have hbreak := almanacLines_no_break seeds blocks hwf
  have hload := Part2.loadLoop_almanacLines seeds blocks hwf
  have hseedsLine : seedsLine seeds ≠ [] := by
    unfold seedsLine
    intro h
    have hlen := congrArg List.length h
    simp only [List.length_append, List.length_nil] at hlen
    have h7 : "seeds: ".toList.length = 7 := by decide
    omega
  refine ⟨?_, ?_⟩
  · exact Part2.LoadAlmanac_of_lines _ _ _
      (rawLines_unlines _ (fun l hl => (hbreak l hl).1)) (fun l hl => (hbreak l hl).2) hload
      hwf.2.2.2
  · refine Part2.LoadAlmanac_of_lines _ _ _
      (rawLines_joinWith _ (List.cons_ne_nil _ _) (fun l hl => (hbreak l hl).1) ?_)
      (fun l hl => (hbreak l hl).2) hload hwf.2.2.2
    exact getLast?_blocksLines blocks (fun b hb => (hwf.2.2.1 b hb).2.2) (seedsLine seeds)
      hseedsLine

/-- Witness of C15, amended: the head of the sample, whose text is
`seeds: 79 14 55 13`, a blank line, `seed-to-soil map:`, `50 98 2`,
`52 50 48`, a blank line, `soil-to-fertilizer map:` and `0 15 37`. -/
theorem LoadAlmanac_wellFormed_witness :
    unlines (almanacLines sampleSeeds sampleBlocks)
        = ("seeds: 79 14 55 13\n\nseed-to-soil map:\n50 98 2\n52 50 48\n\n" ++
            "soil-to-fertilizer map:\n0 15 37\n").toList ∧
      Part2.LoadAlmanac (unlines (almanacLines sampleSeeds sampleBlocks))
        = some { SeedRanges := seedValues sampleSeeds,
                 Maps := sampleBlocks.map BlockText.toMap, Log := ⟨[]⟩ } ∧
      Part2.LoadAlmanac (joinWith '\n' (almanacLines sampleSeeds sampleBlocks))
        = some { SeedRanges := seedValues sampleSeeds,
                 Maps := sampleBlocks.map BlockText.toMap, Log := ⟨[]⟩ } :=
  ⟨by decide, LoadAlmanac_wellFormed sampleSeeds sampleBlocks (by decide)⟩

theorem Part2.loadLoop_reaches (rest : List (List Char)) :
    ∀ pre : List (List Char),
      (∀ almanac : Part2.Almanac,
        Part2.loadLoop (pre ++ [] :: rest) almanac = none ∨
          ∃ reached, Part2.loadLoop (pre ++ [] :: rest) almanac = Part2.loadLoop rest reached) ∧
      (∀ (aMap : AlmanacMap) (almanac : Part2.Almanac),
        Part2.blockLoop (pre ++ [] :: rest) aMap almanac = none ∨
          ∃ reached,
            Part2.blockLoop (pre ++ [] :: rest) aMap almanac = Part2.loadLoop rest reached) := by
  intro pre
  induction pre with
  | nil =>
    refine ⟨fun almanac => Or.inr ⟨almanac, Part2.loadLoop_blank rest almanac⟩,
      fun aMap almanac => Or.inr ⟨{ almanac with Maps := almanac.Maps ++ [aMap] }, ?_⟩⟩
    show Part2.blockLoop ([] :: rest) aMap almanac = _
    rw [Part2.blockLoop]
    simp only [List.length_nil, gt_iff_lt, lt_self_iff_false, if_false]
  | cons line pre ih =>
    obtain ⟨ihLoad, ihBlock⟩ := ih
    refine ⟨fun almanac => ?_, fun aMap almanac => ?_⟩
    · rw [List.cons_append]
      generalize hx : Part2.loadLoop (line :: (pre ++ [] :: rest)) almanac = x
      rw [Part2.loadLoop] at hx
      dsimp only at hx
      split at hx
      · split at hx
        · exact Or.inl hx.symm
        · rw [← hx]; exact ihLoad _
      · split at hx
        · split at hx
          · rw [← hx]; exact ihBlock _ _
          · exact Or.inl hx.symm
        · rw [← hx]; exact ihLoad _
    · rw [List.cons_append]
      generalize hx : Part2.blockLoop (line :: (pre ++ [] :: rest)) aMap almanac = x
      rw [Part2.blockLoop] at hx
      split at hx
      · split at hx
        · exact Or.inl hx.symm
        · rw [← hx]; exact ihBlock _ _
      · rw [← hx]; exact ihLoad _

theorem Part2.loadLoop_header (header : List Char) (post : List (List Char))
    (almanac : Part2.Almanac)
    (hseeds : HasPrefix header "seeds: ".toList = false)
    (hmap : HasSuffix header " map:".toList = true)
    (hfields : (Split (TrimSuffix header " map:".toList) '-').length < 3) :
    Part2.loadLoop (header :: post) almanac = none := by
  have h2 : (Split (TrimSuffix header " map:".toList) '-')[2]? = none :=
    List.getElem?_eq_none (by omega)
  rw [Part2.loadLoop]
  simp only [hseeds, Bool.false_eq_true, if_false, hmap, if_true, h2]
  split
  · rename_i heq
    cases heq
  · rfl

theorem Part1.loadLoop_after_blank (rest : List (List Char)) :
    ∀ pre : List (List Char),
      (∀ almanac : Part1.Almanac,
        Part1.loadLoop (pre ++ [] :: rest) almanac = none ∨
          ∃ reached, Part1.loadLoop (pre ++ [] :: rest) almanac = Part1.loadLoop rest reached) ∧
      (∀ (aMap : AlmanacMap) (almanac : Part1.Almanac),
        Part1.blockLoop (pre ++ [] :: rest) aMap almanac = none ∨
          ∃ reached,
            Part1.blockLoop (pre ++ [] :: rest) aMap almanac = Part1.loadLoop rest reached) := by
  have h1 : HasPrefix [] "seeds: ".toList = false := by decide
  have h2 : HasSuffix [] " map:".toList = false := by decide
  intro pre
  induction pre with
  | nil =>
    refine ⟨fun almanac => Or.inr ⟨almanac, ?_⟩,
      fun aMap almanac => Or.inr ⟨{ almanac with Maps := almanac.Maps ++ [aMap] }, ?_⟩⟩
    · show Part1.loadLoop ([] :: rest) almanac = _
      rw [Part1.loadLoop]
      simp only [h1, h2, Bool.false_eq_true, if_false]
    · show Part1.blockLoop ([] :: rest) aMap almanac = _
      rw [Part1.blockLoop]
      simp only [List.length_nil, gt_iff_lt, lt_self_iff_false, if_false]
  | cons line pre ih =>
    obtain ⟨ihLoad, ihBlock⟩ := ih
    refine ⟨fun almanac => ?_, fun aMap almanac => ?_⟩
    · rw [List.cons_append]
      generalize hx : Part1.loadLoop (line :: (pre ++ [] :: rest)) almanac = x
      rw [Part1.loadLoop] at hx
      dsimp only at hx
      split at hx
      · split at hx
        · exact Or.inl hx.symm
        · rw [← hx]; exact ihLoad _
      · split at hx
        · split at hx
          · rw [← hx]; exact ihBlock _ _
          · exact Or.inl hx.symm
        · rw [← hx]; exact ihLoad _
    · rw [List.cons_append]
      generalize hx : Part1.blockLoop (line :: (pre ++ [] :: rest)) aMap almanac = x
      rw [Part1.blockLoop] at hx
      split at hx
      · split at hx
        · exact Or.inl hx.symm
        · rw [← hx]; exact ihBlock _ _
      · rw [← hx]; exact ihLoad _

theorem Part1.loadLoop_short_fields (header : List Char) (post : List (List Char))
    (almanac : Part1.Almanac)
    (hseeds : HasPrefix header "seeds: ".toList = false)
    (hmap : HasSuffix header " map:".toList = true)
    (hfields : (Split (TrimSuffix header " map:".toList) '-').length < 3) :
    Part1.loadLoop (header :: post) almanac = none := by
  have h2 : (Split (TrimSuffix header " map:".toList) '-')[2]? = none :=
    List.getElem?_eq_none (by omega)
  rw [Part1.loadLoop]
  simp only [hseeds, Bool.false_eq_true, if_false, hmap, if_true, h2]
  split
  · rename_i heq
    cases heq
  · rfl

theorem Part1.blockLoop_entry_lines :
    ∀ (entries : List (Numeral × Numeral × Numeral)),
      (∀ e ∈ entries, e.1.valid ∧ e.2.1.valid ∧ e.2.2.valid) →
      ∀ (rest : List (List Char)) (aMap : AlmanacMap) (almanac : Part1.Almanac),
        Part1.blockLoop (entries.map entryLine ++ rest) aMap almanac
          = Part1.blockLoop rest
              { aMap with Entries := aMap.Entries ++ entries.map (fun e =>
                  { Destination := e.1.value, Source := e.2.1.value,
                    SourceRange := e.2.2.value }) } almanac := by
  intro entries
  induction entries with
  | nil => intro _ rest aMap almanac; simp
  | cons e es ih =>
    intro h rest aMap almanac
    obtain ⟨hscan, hlen⟩ := FscanfEntry_entryLine e (h e (List.mem_cons_self _ _))
    show Part1.blockLoop (entryLine e :: (es.map entryLine ++ rest)) aMap almanac = _
    rw [Part1.blockLoop]
    simp only [hlen, if_true, hscan]
    rw [ih (fun x hx => h x (List.mem_cons_of_mem _ hx))]
    simp only [List.map_cons, List.append_assoc, List.singleton_append]

theorem Part2.loadLoop_open (header : List Char) (post : List (List Char))
    (almanac : Part2.Almanac) (input middle output : List Char) (more : List (List Char))
    (hseeds : HasPrefix header "seeds: ".toList = false)
    (hmap : HasSuffix header " map:".toList = true)
    (hsplit : Split (TrimSuffix header " map:".toList) '-' = input :: middle :: output :: more) :
    Part2.loadLoop (header :: post) almanac
      = Part2.blockLoop post
          { Input := String.mk input, Output := String.mk output, Entries := [] } almanac := by
  rw [Part2.loadLoop]
  simp only [hseeds, Bool.false_eq_true, if_false, hmap, if_true, hsplit,
    List.getElem?_cons_zero, List.getElem?_cons_succ]

theorem Part1.loadLoop_open_map (header : List Char) (post : List (List Char))
    (almanac : Part1.Almanac) (input middle output : List Char) (more : List (List Char))
    (hseeds : HasPrefix header "seeds: ".toList = false)
    (hmap : HasSuffix header " map:".toList = true)
    (hsplit : Split (TrimSuffix header " map:".toList) '-' = input :: middle :: output :: more) :
    Part1.loadLoop (header :: post) almanac
      = Part1.blockLoop post
          { Input := String.mk input, Output := String.mk output, Entries := [] } almanac := by
  rw [Part1.loadLoop]
  simp only [hseeds, Bool.false_eq_true, if_false, hmap, if_true, hsplit,
    List.getElem?_cons_zero, List.getElem?_cons_succ]

/-- C16 fails as stated.  The header `x-y-z map:`, whose prefix is not of the
form `<name>-to-<name>`, is accepted as the map from `x` to `z`; and the line
`1 2 3 map:` inside a block, which ends in ` map:`, is read as the entry
`1 2 3`.  `LoadAlmanac` returns an almanac in both cases, in part 2 and in
part 1. -/
theorem LoadAlmanac_header_counterexample :
    Part2.LoadAlmanac "x-y-z map:\n4 5 6\n".toList
        = some ⟨[], [⟨"x", "z", [⟨4, 5, 6⟩]⟩], ⟨[]⟩⟩ ∧
      Part2.LoadAlmanac "seed-to-soil map:\n1 2 3 map:\n".toList
        = some ⟨[], [⟨"seed", "soil", [⟨1, 2, 3⟩]⟩], ⟨[]⟩⟩ ∧
      Part1.LoadAlmanac "x-y-z map:\n4 5 6\n".toList
        = some ⟨[], [⟨"x", "z", [⟨4, 5, 6⟩]⟩], ⟨[]⟩⟩ ∧
      Part1.LoadAlmanac "seed-to-soil map:\n1 2 3 map:\n".toList
        = some ⟨[], [⟨"seed", "soil", [⟨1, 2, 3⟩]⟩], ⟨[]⟩⟩ := by
  decide

/-- C16, amended: take a line that is the first line of the input or follows
a blank line, ends in ` map:` and does not begin with `seeds: `.  If its
prefix has fewer than three fields separated by `-`, `LoadAlmanac` panics (the
index `splitName[2]` is out of range) and returns no almanac.  If its prefix
has three or more fields, then, unless an earlier line already made
`LoadAlmanac` panic, the line is accepted whatever its second field is: it
opens a map with `Input` the first and `Output` the third field, and the
loader goes on reading the following lines as the entries of that map; when
the header is the first line, all following lines are well-formed entry lines
and no line is too long for the scanner, `LoadAlmanac` returns the almanac
whose one map has those names and those entries.  All of this holds in part 2
and in part 1. -/
theorem LoadAlmanac_map_header (input : List Char) (pre post : List (List Char))
    (header : List Char)
    (hlines : ScanLines input = header :: post ∨ ScanLines input = pre ++ [] :: header :: post)
    (hseeds : HasPrefix header "seeds: ".toList = false)
    (hmap : HasSuffix header " map:".toList = true) :
    ((Split (TrimSuffix header " map:".toList) '-').length < 3 →
        Part2.LoadAlmanac input = none ∧ Part1.LoadAlmanac input = none) ∧
      (∀ (first second third : List Char) (more : List (List Char)),
        Split (TrimSuffix header " map:".toList) '-' = first :: second :: third :: more →
        (∀ almanac : Part2.Almanac,
          Part2.loadLoop (header :: post) almanac
            = Part2.blockLoop post
                { Input := String.mk first, Output := String.mk third, Entries := [] }
                almanac) ∧
        (∀ almanac : Part1.Almanac,
          Part1.loadLoop (header :: post) almanac
            = Part1.blockLoop post
                { Input := String.mk first, Output := String.mk third, Entries := [] }
                almanac) ∧
        (Part2.loadLoop (ScanLines input) { SeedRanges := [], Maps := [], Log := ⟨[]⟩ } = none ∨
          ∃ reached,
            Part2.loadLoop (ScanLines input) { SeedRanges := [], Maps := [], Log := ⟨[]⟩ }
              = Part2.blockLoop post
                  { Input := String.mk first, Output := String.mk third, Entries := [] }
                  reached) ∧
        (Part1.loadLoop (ScanLines input) { Seeds := [], Maps := [], Log := ⟨[]⟩ } = none ∨
          ∃ reached,
            Part1.loadLoop (ScanLines input) { Seeds := [], Maps := [], Log := ⟨[]⟩ }
              = Part1.blockLoop post
                  { Input := String.mk first, Output := String.mk third, Entries := [] }
                  reached) ∧
        (∀ entries : List (Numeral × Numeral × Numeral),
          ScanLines input = header :: entries.map entryLine →
          (∀ e ∈ entries, e.1.valid ∧ e.2.1.valid ∧ e.2.2.valid) →
          (rawLines input).any lineTooLong = false →
          Part2.LoadAlmanac input
              = some { SeedRanges := [], Log := ⟨[]⟩,
                       Maps := [{ Input := String.mk first, Output := String.mk third,
                                  Entries := entries.map (fun e =>
                                    { Destination := e.1.value, Source := e.2.1.value,
                                      SourceRange := e.2.2.value }) }] } ∧
            Part1.LoadAlmanac input
              = some { Seeds := [], Log := ⟨[]⟩,
                       Maps := [{ Input := String.mk first, Output := String.mk third,
                                  Entries := entries.map (fun e =>
                                    { Destination := e.1.value, Source := e.2.1.value,
                                      SourceRange := e.2.2.value }) }] })) := by
  refine ⟨fun hfields => ?_, fun first second third more hsplit => ?_⟩
  · have hhead2 : ∀ almanac : Part2.Almanac, Part2.loadLoop (header :: post) almanac = none :=
      fun almanac => Part2.loadLoop_header header post almanac hseeds hmap hfields
    have hhead1 : ∀ almanac : Part1.Almanac, Part1.loadLoop (header :: post) almanac = none :=
      fun almanac => Part1.loadLoop_short_fields header post almanac hseeds hmap hfields
    have hnone2 : Part2.loadLoop (ScanLines input) { SeedRanges := [], Maps := [], Log := ⟨[]⟩ }
        = none := by
      rcases hlines with h | h
      · rw [h]
        exact hhead2 _
      · rw [h]
        rcases (Part2.loadLoop_reaches (header :: post) pre).1
          { SeedRanges := [], Maps := [], Log := ⟨[]⟩ } with hn | ⟨reached, hr⟩
        · exact hn
        · rw [hr]
          exact hhead2 reached
    have hnone1 : Part1.loadLoop (ScanLines input) { Seeds := [], Maps := [], Log := ⟨[]⟩ }
        = none := by
      rcases hlines with h | h
      · rw [h]
        exact hhead1 _
      · rw [h]
        rcases (Part1.loadLoop_after_blank (header :: post) pre).1
          { Seeds := [], Maps := [], Log := ⟨[]⟩ } with hn | ⟨reached, hr⟩
        · exact hn
        · rw [hr]
          exact hhead1 reached
    refine ⟨?_, ?_⟩
    · unfold Part2.LoadAlmanac
      rw [hnone2]
    · unfold Part1.LoadAlmanac
      rw [hnone1]
  · have hopen2 : ∀ (rest : List (List Char)) (almanac : Part2.Almanac),
        Part2.loadLoop (header :: rest) almanac
          = Part2.blockLoop rest
              { Input := String.mk first, Output := String.mk third, Entries := [] } almanac :=
      fun rest almanac =>
        Part2.loadLoop_open header rest almanac first second third more hseeds hmap hsplit
    have hopen1 : ∀ (rest : List (List Char)) (almanac : Part1.Almanac),
        Part1.loadLoop (header :: rest) almanac
          = Part1.blockLoop rest
              { Input := String.mk first, Output := String.mk third, Entries := [] } almanac :=
      fun rest almanac =>
        Part1.loadLoop_open_map header rest almanac first second third more hseeds hmap hsplit
    refine ⟨hopen2 post, hopen1 post, ?_, ?_, ?_⟩
    · rcases hlines with h | h
      · rw [h]
        exact Or.inr ⟨_, hopen2 post _⟩
      · rw [h]
        rcases (Part2.loadLoop_reaches (header :: post) pre).1
          { SeedRanges := [], Maps := [], Log := ⟨[]⟩ } with hn | ⟨reached, hr⟩
        · exact Or.inl hn
        · exact Or.inr ⟨reached, by rw [hr]; exact hopen2 post reached⟩
    · rcases hlines with h | h
      · rw [h]
        exact Or.inr ⟨_, hopen1 post _⟩
      · rw [h]
        rcases (Part1.loadLoop_after_blank (header :: post) pre).1
          { Seeds := [], Maps := [], Log := ⟨[]⟩ } with hn | ⟨reached, hr⟩
        · exact Or.inl hn
        · exact Or.inr ⟨reached, by rw [hr]; exact hopen1 post reached⟩
    · intro entries hscan hvalid hlen
      have h2 := Part2.blockLoop_entries entries hvalid []
        { Input := String.mk first, Output := String.mk third, Entries := [] }
        { SeedRanges := [], Maps := [], Log := ⟨[]⟩ }
      have h1 := Part1.blockLoop_entry_lines entries hvalid []
        { Input := String.mk first, Output := String.mk third, Entries := [] }
        { Seeds := [], Maps := [], Log := ⟨[]⟩ }
      rw [List.append_nil] at h2 h1
      refine ⟨?_, ?_⟩
      · unfold Part2.LoadAlmanac
        rw [hscan, hopen2, h2]
        simp only [Part2.blockLoop, List.nil_append, hlen, Bool.false_eq_true, if_false]
      · unfold Part1.LoadAlmanac
        rw [hscan, hopen1, h1]
        simp only [Part1.blockLoop, List.nil_append, hlen, Bool.false_eq_true, if_false]

/-- Witness of C16, amended: after the seeds line and a blank line, the
header `seed-soil map:` has two fields only and the loaders panic; the input
made of the header `x-y-z map:` and the entry line `4 5 6` is loaded as the
map from `x` to `z` with that entry. -/
theorem LoadAlmanac_map_header_witness :
    (Part2.LoadAlmanac "seeds: 79 14\n\nseed-soil map:\n50 98 2\n".toList = none ∧
        Part1.LoadAlmanac "seeds: 79 14\n\nseed-soil map:\n50 98 2\n".toList = none) ∧
      (Part2.LoadAlmanac "x-y-z map:\n4 5 6\n".toList
          = some { SeedRanges := [], Log := ⟨[]⟩,
                   Maps := [{ Input := "x", Output := "z",
                              Entries := [{ Destination := 4, Source := 5,
                                            SourceRange := 6 }] }] } ∧
        Part1.LoadAlmanac "x-y-z map:\n4 5 6\n".toList
          = some { Seeds := [], Log := ⟨[]⟩,
                   Maps := [{ Input := "x", Output := "z",
                              Entries := [{ Destination := 4, Source := 5,
                                            SourceRange := 6 }] }] }) :=
  ⟨(LoadAlmanac_map_header "seeds: 79 14\n\nseed-soil map:\n50 98 2\n".toList
      ["seeds: 79 14".toList] ["50 98 2".toList] "seed-soil map:".toList
      (Or.inr (by decide)) (by decide) (by decide)).1 (by decide),
    ((LoadAlmanac_map_header "x-y-z map:\n4 5 6\n".toList [] ["4 5 6".toList]
      "x-y-z map:".toList (Or.inl (by decide)) (by decide) (by decide)).2
      "x".toList "y".toList "z".toList [] (by decide)).2.2.2.2
      [(⟨"4".toList, 4⟩, ⟨"5".toList, 5⟩, ⟨"6".toList, 6⟩)] (by decide) (by decide)
      (by decide)⟩

end Day05
